import Mathlib

/-!
Verification of the prequel-logmatch matcher core against its
natural-language specification.

The definitions below are a shallow embedding of the Go source:

* `pkg/entry`           : `LogEntry`
* `pkg/match/match.go`  : `Hits`, `MatchFunc`, `makeMatchFunc`
* `pkg/match/mask.go`   : `bitMaskT`
* `pkg/match/inverse.go`: `ResetT`, `resetT`, `termT`, `calcWindow`,
                          `calcGCWindow`, `shiftLeft`, `resetTerm`
* `pkg/match/seq.go`    : `MatchSeq`
* `pkg/match/set.go`    : `MatchSet`
* `pkg/match/inverse_seq.go` : `InverseSeq`
* `pkg/match/inverse_set.go` : `InverseSet`
* `pkg/scanner/reorder.go`   : `ReorderT`

Machine integers (`int64`) are embedded as `Int`; overflow plays no
role in the properties considered.  Go slices of asserts are embedded
as `List LogEntry` (capacity-management details of `shiftLeft` and
`resetTerm` only affect allocation, not values, and are dropped).
Term predicates are pure `String → Bool` functions; the external
regex and jq predicate compilers are out of the specified core and
are abstracted as a `Compilers` parameter.
-/

namespace Logmatch

/-- A log entry, from `pkg/entry` (`Matches` offsets are unused by the
matcher core and omitted). -/
structure LogEntry where
  Line : String
  Stream : String
  Timestamp : Int
deriving DecidableEq, Repr

/-- Default entry used for total indexing where the Go code indexes
into a slice that is provably nonempty at that point. -/
def nilEntry : LogEntry := ⟨"", "", 0⟩

/-- A compiled term predicate (`MatchFunc` in `pkg/match/match.go`). -/
def MatchFunc := String → Bool

/-- Hits, from `pkg/match/match.go`. -/
structure Hits where
  Cnt : Nat
  Logs : List LogEntry
deriving DecidableEq, Repr

/-- The empty hit collection (Go zero value of `Hits`). -/
def noHits : Hits := ⟨0, []⟩

/-- Error kinds returned by matcher construction and predicate
compilation (`ErrNoTerms`, `ErrTooManyTerms`, `ErrAnchorRange`,
`ErrEmptyTerm`, regex/jq compile failures). -/
inductive MatchErr where
  | noTerms
  | tooManyTerms
  | anchorRange
  | duplicateTerm
  | emptyTerm
  | compileFail
deriving DecidableEq, Repr

/-- `strings.Contains` on character lists: does `hay` contain
`needle` as a contiguous substring? -/
def containsAux (needle : List Char) : List Char → Bool
  | [] => needle.isEmpty
  | c :: rest => needle.isPrefixOf (c :: rest) || containsAux needle rest

/-- Go `strings.Contains line s`. -/
def strContains (line s : String) : Bool :=
  containsAux s.data line.data

/-- Characters escaped by Go `regexp.QuoteMeta`; a term containing
one of them is treated as a regular expression by `isRegex`. -/
def regexSpecials : List Char := "\\.+*?()|[]\x7b\x7d^$".data

/-- `isRegex` from `pkg/match/match.go`: `regexp.QuoteMeta(v) != v`,
i.e. `v` contains at least one regex metacharacter. -/
def isRegex (v : String) : Bool :=
  v.data.any (fun c => regexSpecials.contains c)

/-- External predicate compilers (regex and jq).  The spec places
these outside the matcher core ("term-predicate compilers" are
external collaborators), so they are abstracted as parameters. -/
structure Compilers where
  regex : String → Except MatchErr MatchFunc
  jq : String → Except MatchErr MatchFunc

/-- `makeRawMatch` from `pkg/match/match.go`. -/
def makeRawMatch (s : String) : MatchFunc :=
  fun line => strContains line s

/-- `makeMatchFunc` from `pkg/match/match.go`: empty terms are
rejected, `jq_`-prefixed terms go to the jq compiler, terms containing
regex metacharacters go to the regex compiler, and everything else is
a raw substring match. -/
def makeMatchFunc (C : Compilers) (s : String) : Except MatchErr MatchFunc :=
  if s = "" then .error .emptyTerm
  else if "jq_".data.isPrefixOf s.data then C.jq s
  else if isRegex s then C.regex s
  else .ok (makeRawMatch s)

/-- Per-term matcher state (`termT` in `pkg/match/inverse.go`). -/
structure termT where
  matcher : MatchFunc
  asserts : List LogEntry

/-- Default term used for total indexing. -/
def nilTerm : termT := ⟨fun _ => false, []⟩

/-- Read `terms[idx]` totally. -/
def getTerm (terms : List termT) (idx : Nat) : termT :=
  terms.getD idx nilTerm

/-- `shiftLeft` from `pkg/match/inverse.go`: drop the first `cnt`
asserts of `terms[idx]` (the source's capacity management does not
change the values). -/
def shiftLeft (terms : List termT) (idx cnt : Nat) : List termT :=
  terms.set idx { getTerm terms idx with asserts := (getTerm terms idx).asserts.drop cnt }

/-- `resetTerm` from `pkg/match/inverse.go`: clear `terms[idx]`. -/
def resetTerm (terms : List termT) (idx : Nat) : List termT :=
  terms.set idx { getTerm terms idx with asserts := [] }

/-- `disableGC = math.MaxInt64` from `pkg/match/set.go`. -/
def disableGC : Int := 2 ^ 63 - 1

/-- `maxTerms`.  The constant itself is not under `src/`; it is
modelled from the spec: `|terms| ≤ 64` ("too-many-terms (>64)"). -/
def maxTerms : Nat := 64

/-- Bit mask over up to 64 term slots (`bitMaskT` in
`pkg/match/mask.go`). -/
structure bitMaskT where
  bits : Nat
deriving DecidableEq, Repr

namespace bitMaskT

/-- `Set` from `pkg/match/mask.go`. -/
def Set (m : bitMaskT) (slot : Nat) : bitMaskT :=
  ⟨m.bits ||| (1 <<< slot)⟩

/-- `Clr` from `pkg/match/mask.go` (`&^` on a 64-bit word; masks only
ever use slots < 64). -/
def Clr (m : bitMaskT) (slot : Nat) : bitMaskT :=
  ⟨m.bits &&& ((2 ^ 64 - 1) ^^^ (1 <<< slot))⟩

/-- `Zeros` from `pkg/match/mask.go`. -/
def Zeros (m : bitMaskT) : Bool :=
  m.bits = 0

/-- `FirstN` from `pkg/match/mask.go`: the low `n` bits are all set. -/
def FirstN (m : bitMaskT) (n : Nat) : Bool :=
  m.bits &&& (1 <<< n - 1) = 1 <<< n - 1

/-- `IsSet` from `pkg/match/mask.go`. -/
def IsSet (m : bitMaskT) (slot : Nat) : Bool :=
  m.bits.testBit slot

end bitMaskT

/-- A reset (inverse) term specification (`ResetT` in
`pkg/match/inverse.go`); the term is a string compiled through
`makeMatchFunc`. -/
structure ResetT where
  Term : String
  Window : Int := 0
  Slide : Int := 0
  Anchor : Nat := 0
  Absolute : Bool := false

/-- Internal reset state (`resetT` in `pkg/match/inverse.go`):
compiled matcher, observed occurrence timestamps, window geometry. -/
structure resetT where
  matcher : MatchFunc
  resets : List Int
  window : Int
  slide : Int
  anchor : Nat
  absolute : Bool

/-- `resetT.calcWindow` from `pkg/match/inverse.go`: compute the
denial interval `[anchor, anchor+width]` for the framed timestamps
`stamps`. -/
def resetT.calcWindow (r : resetT) (stamps : List Int) : Int × Int :=
  let width := r.window
  let anchor := stamps.getD r.anchor 0 + r.slide
  let width := if r.absolute then width
    else width + (stamps.getLastD 0 - stamps.headD 0)
  let width := if width ≤ 0 then 0 else width
  (anchor, anchor + width)

/-- `calcGCWindow` from `pkg/match/inverse.go`. -/
def calcGCWindow (window : Int) (resets : List resetT) : Int × Int :=
  let lr := resets.foldl (fun (lr : Int × Int) reset =>
    let rRight := window + reset.window + reset.slide
    let right := if rRight > lr.2 then rRight else lr.2
    let left := if reset.slide < lr.1 then reset.slide else lr.1
    (left, right)) (0, window)
  let right := if resets.length > 0 then lr.2 + 1 else lr.2
  (-1 * lr.1, right)

/-- Total asserts across a term list (used as recursion fuel for the
inverse matchers' evaluation loops). -/
def totalAsserts (terms : List termT) : Nat :=
  terms.foldl (fun acc t => acc + t.asserts.length) 0

/-! ## MatchSeq (`pkg/match/seq.go`, current revision) -/

/-- Sequence matcher state (`MatchSeq`). -/
structure MatchSeq where
  clock : Int
  window : Int
  nActive : Nat
  dupeMask : bitMaskT
  terms : List termT

/-- Count duplicate strings (the `dupes` map of `NewMatchSeq`,
`NewInverseSeq`). -/
def countDupes (terms : List String) : List (String × Nat) :=
  terms.foldl (fun acc term =>
    match acc.lookup term with
    | some v => acc.map (fun p => if p.1 = term then (p.1, v + 1) else p)
    | none => acc ++ [(term, 1)]) []

/-- Compile each term of a sequence matcher, collecting the duplicate
mask (`NewMatchSeq` / `NewInverseSeq` term loop). -/
def buildSeqTerms (C : Compilers) (dupes : List (String × Nat)) :
    List String → Nat → Except MatchErr (List termT × bitMaskT)
  | [], _ => .ok ([], ⟨0⟩)
  | term :: rest, i => do
    let m ← makeMatchFunc C term
    let (terms, mask) ← buildSeqTerms C dupes rest (i + 1)
    let mask := if (dupes.lookup term).getD 0 > 1 then mask.Set i else mask
    .ok (⟨m, []⟩ :: terms, mask)

/-- `NewMatchSeq` from `pkg/match/seq.go`. -/
def NewMatchSeq (C : Compilers) (window : Int) (terms : List String) :
    Except MatchErr MatchSeq :=
  if terms.length = 0 then .error .noTerms
  else if terms.length > 64 then .error .tooManyTerms
  else do
    let (termL, dupeMask) ← buildSeqTerms C (countDupes terms) terms 0
    .ok { clock := 0, window := window, nActive := 0, dupeMask := dupeMask, terms := termL }

/-- Key used by `miniGC` duplicate pruning (`dupeT`). -/
structure dupeT where
  Line : String
  Stream : String
  Timestamp : Int
deriving DecidableEq

/-- The `dupeT` key of an entry. -/
def dupeKey (e : LogEntry) : dupeT := ⟨e.Line, e.Stream, e.Timestamp⟩

/-- Prefix length removed from one term's asserts by the `miniGC`
term loop: drop entries older than the position-0 anchor, and (for
duplicate-marked positions) entries already claimed at an earlier
position. -/
def miniGCDropCount (isDupe : Bool) (zeroMatch : Int) (dupes : List dupeT) :
    List LogEntry → Nat
  | [] => 0
  | e :: rest =>
    if e.Timestamp < zeroMatch then 1 + miniGCDropCount isDupe zeroMatch dupes rest
    else if isDupe then
      if dupes.contains (dupeKey e) then 1 + miniGCDropCount isDupe zeroMatch dupes rest
      else 0
    else 0

/-- One iteration of the `miniGC` loop over positions `1 ≤ i < nActive`.
State: `(terms, dupes, forceClear, nActive)`. -/
def miniGCStep (dupeMask : bitMaskT) (zeroMatch : Int)
    (st : List termT × List dupeT × Bool × Nat) (i : Nat) :
    List termT × List dupeT × Bool × Nat :=
  let (terms, dupes, forceClear, nActive) := st
  if forceClear then (resetTerm terms i, dupes, true, nActive)
  else
    let m := (getTerm terms i).asserts
    let cnt := miniGCDropCount (dupeMask.IsSet i) zeroMatch dupes m
    let terms := if cnt > 0 then shiftLeft terms i cnt else terms
    if (getTerm terms i).asserts.length > 0 then
      let dupes := if dupeMask.IsSet i then
        dupeKey ((getTerm terms i).asserts.headD nilEntry) :: dupes else dupes
      (terms, dupes, false, nActive + 1)
    else (terms, dupes, true, nActive)

/-- Clear every term (`MatchSeq.reset` / `InverseSeq.reset`). -/
def resetAllTerms (terms : List termT) : List termT :=
  terms.map (fun t => { t with asserts := [] })

/-- `miniGC`, shared verbatim between `MatchSeq` and `InverseSeq`:
if position 0 is empty, reset; otherwise prune positions `1..nActive-1`
against position 0's earliest assert and recompute `nActive`. -/
def miniGCCore (dupeMask : bitMaskT) (terms : List termT) (nActive : Nat) :
    List termT × Nat :=
  if (getTerm terms 0).asserts.isEmpty then (resetAllTerms terms, 0)
  else
    let zeroMatch := ((getTerm terms 0).asserts.headD nilEntry).Timestamp
    let dupes : List dupeT :=
      if ¬ dupeMask.Zeros ∧ dupeMask.IsSet 0 then
        [dupeKey ((getTerm terms 0).asserts.headD nilEntry)]
      else []
    let (terms, _, _, nActive) :=
      (List.range' 1 (nActive - 1)).foldl (miniGCStep dupeMask zeroMatch)
        (terms, dupes, false, 1)
    (terms, nActive)

/-- `MatchSeq.miniGC`. -/
def MatchSeq.miniGC (s : MatchSeq) : MatchSeq :=
  let (terms, nActive) := miniGCCore s.dupeMask s.terms s.nActive
  { s with terms := terms, nActive := nActive }

/-- `MatchSeq.GarbageCollect`: drop position-0 asserts older than
`clock - window`, then `miniGC`. -/
def MatchSeq.GarbageCollect (s : MatchSeq) (clock : Int) : MatchSeq :=
  let deadline := clock - s.window
  let cnt := ((getTerm s.terms 0).asserts.takeWhile (fun e => e.Timestamp < deadline)).length
  let s := if cnt > 0 then { s with terms := shiftLeft s.terms 0 cnt } else s
  s.miniGC

/-- `MatchSeq.maybeGC`. -/
def MatchSeq.maybeGC (s : MatchSeq) (clock : Int) : MatchSeq :=
  if s.nActive = 0 ∨ clock - ((getTerm s.terms 0).asserts.headD nilEntry).Timestamp < s.window
  then s
  else s.GarbageCollect clock

/-- Append `e` to every currently active term whose predicate matches
(the `for i := range r.nActive` loop of `Scan`). -/
def appendActive (terms : List termT) (nActive : Nat) (e : LogEntry) : List termT :=
  (List.range nActive).foldl (fun terms i =>
    if (getTerm terms i).matcher e.Line then
      terms.set i { getTerm terms i with asserts := (getTerm terms i).asserts ++ [e] }
    else terms) terms

/-- Fire a full sequence frame: collect the first assert of each of the
first `n-1` terms and drop it (`Scan`'s fire loop). -/
def fireSeqFrame (terms : List termT) (n : Nat) : List termT × List LogEntry :=
  (List.range (n - 1)).foldl (fun (st : List termT × List LogEntry) i =>
    let (terms, logs) := st
    (shiftLeft terms i 1, logs ++ [(getTerm terms i).asserts.headD nilEntry])) (terms, [])

/-- `MatchSeq.Scan` from `pkg/match/seq.go`. -/
def MatchSeq.Scan (s : MatchSeq) (e : LogEntry) : MatchSeq × Hits :=
  if e.Timestamp < s.clock then (s, noHits)
  else
    let s := { s with clock := e.Timestamp }
    let s := s.maybeGC e.Timestamp
    let s := { s with terms := appendActive s.terms s.nActive e }
    if ¬ (getTerm s.terms s.nActive).matcher e.Line then (s, noHits)
    else
      let s := { s with nActive := s.nActive + 1 }
      if s.nActive < s.terms.length then
        ({ s with terms := (s.terms.set (s.nActive - 1)
            { getTerm s.terms (s.nActive - 1) with
              asserts := (getTerm s.terms (s.nActive - 1)).asserts ++ [e] }) }, noHits)
      else
        let (terms, logs) := fireSeqFrame s.terms s.terms.length
        let s := { s with terms := terms }
        let s := s.miniGC
        (s, ⟨1, logs ++ [e]⟩)

/-- `MatchSeq.Eval`: edge triggered, no hits, no state change. -/
def MatchSeq.Eval (s : MatchSeq) (_clock : Int) : MatchSeq × Hits :=
  (s, noHits)

/-! ## MatchSet (`pkg/match/set.go`) -/

/-- Term kinds of the public term descriptor.
Modelled from the spec: the `TermT` type is referenced by
`NewMatchSet`/`NewInverseSet` but its declaration is not under `src/`;
the spec defines a term as `{ kind ∈ {raw-substring, regex, jq-json,
jq-yaml}, value: text }` with structural equality on `(kind, value)`. -/
inductive TermKind where
  | raw
  | regex
  | jqJson
  | jqYaml
deriving DecidableEq, Repr

/-- Public term descriptor.
Modelled from the spec: `Term. { kind, value }`. -/
structure TermT where
  Kind : TermKind
  Value : String
deriving DecidableEq, BEq, Repr

/-- `TermT.NewMatcher`.
Modelled from the spec (§4.1 Predicate compiler): raw-substring
rejects the empty value with `empty-term` and otherwise matches by
substring; regex and jq terms are compiled by the external
collaborators abstracted in `Compilers`. -/
def TermT.NewMatcher (t : TermT) (C : Compilers) : Except MatchErr MatchFunc :=
  match t.Kind with
  | .raw => if t.Value = "" then .error .emptyTerm else .ok (makeRawMatch t.Value)
  | .regex => C.regex t.Value
  | .jqJson => C.jq t.Value
  | .jqYaml => C.jq t.Value

/-- Set matcher state (`MatchSet`). -/
structure MatchSet where
  clock : Int
  window : Int
  gcMark : Int
  hotMask : bitMaskT
  terms : List termT
  dupeMap : List (Nat × Nat)

/-- Association-list lookup for the Go `map[int]int` dupe maps
(`nil` map ⟺ `[]`). -/
def alookup (l : List (Nat × Nat)) (k : Nat) : Option Nat :=
  (l.find? (fun p => p.1 = k)).map (·.2)

/-- Go `r.dupeMap[i]` without the `ok` flag: zero when absent. -/
def alookupD (l : List (Nat × Nat)) (k : Nat) : Nat :=
  (alookup l k).getD 0

/-- First pass of `NewMatchSet`/`NewInverseSet`: count occurrences of
each distinct term descriptor. -/
def countTermDupes (setTerms : List TermT) : List (TermT × Nat) :=
  setTerms.foldl (fun acc term =>
    match acc.lookup term with
    | some v => acc.map (fun (p : TermT × Nat) => if p.1 = term then (p.1, v + 1) else p)
    | none => acc ++ [(term, 1)]) []

/-- Second pass of `NewMatchSet`/`NewInverseSet`: build the matcher
list and the dupe map.  Mirrors the source exactly, including the
`delete(dupes, term)` bookkeeping and the use of the `setTerms` index
`i` as the `dupeMap` key. -/
def buildSetTerms (C : Compilers) :
    List TermT → Nat → List (TermT × Nat) → List termT → List (Nat × Nat) →
    Except MatchErr (List termT × List (Nat × Nat))
  | [], _, _, terms, dupeMap => .ok (terms, dupeMap)
  | term :: rest, i, dupes, terms, dupeMap => do
    let cnt := (dupes.lookup term).getD 0
    if cnt ≥ 1 then
      let m ← term.NewMatcher C
      let terms := terms ++ [⟨m, []⟩]
      if cnt > 1 then
        buildSetTerms C rest (i + 1) (dupes.filter (fun p => ¬ (p.1 = term)))
          terms (dupeMap ++ [(i, cnt)])
      else
        buildSetTerms C rest (i + 1) dupes terms dupeMap
    else
      buildSetTerms C rest (i + 1) dupes terms dupeMap

/-- `NewMatchSet` from `pkg/match/set.go`. -/
def NewMatchSet (C : Compilers) (window : Int) (setTerms : List TermT) :
    Except MatchErr MatchSet :=
  if setTerms.length > maxTerms then .error .tooManyTerms
  else if setTerms.length = 0 then .error .noTerms
  else do
    let (terms, dupeMap) ← buildSetTerms C setTerms 0 (countTermDupes setTerms) [] []
    .ok { clock := 0, window := window, gcMark := disableGC, hotMask := ⟨0⟩,
          terms := terms, dupeMap := dupeMap }

/-- The per-term match loop of `MatchSet.Scan`: append matching
entries, update the hot mask and the GC mark. -/
def setScanTerms (dupeMap : List (Nat × Nat)) (e : LogEntry)
    (st : List termT × bitMaskT × Int) : List termT × bitMaskT × Int :=
  (List.range st.1.length).foldl (fun (st : List termT × bitMaskT × Int) i =>
    let (terms, mask, gcMark) := st
    if (getTerm terms i).matcher e.Line then
      let terms := terms.set i { getTerm terms i with
        asserts := (getTerm terms i).asserts ++ [e] }
      let mask := match alookup dupeMap i with
        | none => mask.Set i
        | some dupeCnt =>
          if (getTerm terms i).asserts.length ≥ dupeCnt then mask.Set i else mask
      let gcMark := if e.Timestamp < gcMark then e.Timestamp else gcMark
      (terms, mask, gcMark)
    else st) st

/-- The fire-and-prune loop of `MatchSet.Scan`: take the first
`hitCnt` asserts of each term into the hit, drop them, and maintain
the hot mask and GC mark. -/
def setFire (dupeMap : List (Nat × Nat)) (terms : List termT) :
    List termT × bitMaskT → List LogEntry × List termT × bitMaskT × Int :=
  fun st =>
    (List.range terms.length).foldl
      (fun (st : List LogEntry × List termT × bitMaskT × Int) i =>
        let (logs, terms, mask, gcMark) := st
        let dupeCnt := alookupD dupeMap i
        let hitCnt := if dupeCnt > 0 then dupeCnt else 1
        let m := (getTerm terms i).asserts
        let logs := logs ++ m.take hitCnt
        let m := m.drop hitCnt
        let terms := terms.set i { getTerm terms i with asserts := m }
        if m.length = 0 then (logs, terms, mask.Clr i, gcMark)
        else
          let mask := if m.length < dupeCnt then mask.Clr i else mask
          let gcMark := if (m.headD nilEntry).Timestamp < gcMark
            then (m.headD nilEntry).Timestamp else gcMark
          (logs, terms, mask, gcMark))
      ([], st.1, st.2, disableGC)

/-- `MatchSet.GarbageCollect` from `pkg/match/set.go`. -/
def MatchSet.GarbageCollect (s : MatchSet) (clock : Int) : MatchSet :=
  let deadline := clock - s.window
  let (terms, mask, gcMark) :=
    (List.range s.terms.length).foldl
      (fun (st : List termT × bitMaskT × Int) i =>
        let (terms, mask, gcMark) := st
        let cnt := ((getTerm terms i).asserts.takeWhile
          (fun e => e.Timestamp < deadline)).length
        let terms := if cnt > 0 then shiftLeft terms i cnt else terms
        let m := (getTerm terms i).asserts
        let dupeCnt := alookupD s.dupeMap i
        if m.length = 0 then (terms, mask.Clr i, gcMark)
        else
          let mask := if m.length < dupeCnt then mask.Clr i else mask
          let gcMark := if (m.headD nilEntry).Timestamp < gcMark
            then (m.headD nilEntry).Timestamp else gcMark
          (terms, mask, gcMark))
      (s.terms, s.hotMask, disableGC)
  { s with terms := terms, hotMask := mask, gcMark := gcMark }

/-- `MatchSet.maybeGC`. -/
def MatchSet.maybeGC (s : MatchSet) (clock : Int) : MatchSet :=
  if (s.hotMask.Zeros ∧ s.dupeMap = []) ∨ clock - s.gcMark ≤ s.window then s
  else s.GarbageCollect clock

/-- `MatchSet.Scan` from `pkg/match/set.go`. -/
def MatchSet.Scan (s : MatchSet) (e : LogEntry) : MatchSet × Hits :=
  if e.Timestamp < s.clock then (s, noHits)
  else
    let s := { s with clock := e.Timestamp }
    let s := s.maybeGC e.Timestamp
    let (terms, mask, gcMark) := setScanTerms s.dupeMap e (s.terms, s.hotMask, s.gcMark)
    let s := { s with terms := terms, hotMask := mask, gcMark := gcMark }
    if ¬ s.hotMask.FirstN s.terms.length then (s, noHits)
    else
      let (logs, terms, mask, gcMark) := setFire s.dupeMap s.terms (s.terms, s.hotMask)
      ({ s with terms := terms, hotMask := mask, gcMark := gcMark }, ⟨1, logs⟩)

/-- `MatchSet.Eval`: edge triggered, no hits, no state change. -/
def MatchSet.Eval (s : MatchSet) (_clock : Int) : MatchSet × Hits :=
  (s, noHits)

/-! ## InverseSeq (`pkg/match/inverse_seq.go`) -/

/-- Inverse sequence matcher state (`InverseSeq`). -/
structure InverseSeq where
  clock : Int
  window : Int
  gcMark : Int
  gcLeft : Int
  gcRight : Int
  nActive : Nat
  dupeMask : bitMaskT
  terms : List termT
  resets : List resetT

/-- Compile the reset terms of `NewInverseSeq`, checking each anchor
against the number of sequence terms. -/
def buildResets (C : Compilers) (nTerms : Nat) :
    List ResetT → Except MatchErr (List resetT)
  | [] => .ok []
  | term :: rest => do
    let m ← makeMatchFunc C term.Term
    if term.Anchor ≥ nTerms then .error .anchorRange
    else do
      let tail ← buildResets C nTerms rest
      .ok (⟨m, [], term.Window, term.Slide, term.Anchor, term.Absolute⟩ :: tail)

/-- `NewInverseSeq` from `pkg/match/inverse_seq.go`. -/
def NewInverseSeq (C : Compilers) (window : Int) (seqTerms : List String)
    (resetTerms : List ResetT) : Except MatchErr InverseSeq :=
  if seqTerms.length = 0 then .error .noTerms
  else if seqTerms.length > 64 then .error .tooManyTerms
  else do
    let (terms, dupeMask) ← buildSeqTerms C (countDupes seqTerms) seqTerms 0
    let resets ← buildResets C seqTerms.length resetTerms
    let (gcLeft, gcRight) := calcGCWindow window resets
    .ok { clock := 0, window := window, gcMark := disableGC, gcLeft := gcLeft,
          gcRight := gcRight, nActive := 0, dupeMask := dupeMask,
          terms := terms, resets := resets }

/-- Per-term front timestamps of the framed tuple
(`stamps[i] = r.terms[i].asserts[0].Timestamp` in
`InverseSeq.checkReset`; note: positional order, not sorted). -/
def InverseSeq.frameStamps (s : InverseSeq) : List Int :=
  s.terms.map (fun t => (t.asserts.headD nilEntry).Timestamp)

/-- The reset iteration of `InverseSeq.checkReset`: deny on an
occurrence inside a denial window, wait while a window's stop has not
been strictly passed by the clock, else keep going.  Returns
`(retryNanos, anchor)`, `anchor = 255` (`math.MaxUint8`) meaning "no
denial". -/
def checkResetAux (stamps : List Int) (clock : Int) : List resetT → Int × Nat
  | [] => (0, 255)
  | reset :: rest =>
    let w := reset.calcWindow stamps
    if reset.resets.any (fun ts => w.1 ≤ ts ∧ ts ≤ w.2) then (0, reset.anchor)
    else if w.2 ≥ clock then (w.2 - clock + 1, 255)
    else checkResetAux stamps clock rest

/-- `InverseSeq.checkReset` from `pkg/match/inverse_seq.go`. -/
def InverseSeq.checkReset (s : InverseSeq) (clock : Int) : Int × Nat :=
  checkResetAux s.frameStamps clock s.resets

/-- `InverseSeq.resetGcMark`. -/
def InverseSeq.resetGcMark (s : InverseSeq) (nMark : Int) : InverseSeq :=
  if nMark < s.gcMark then { s with gcMark := nMark } else s

/-- `InverseSeq.miniGC`. -/
def InverseSeq.miniGC (s : InverseSeq) : InverseSeq :=
  let (terms, nActive) := miniGCCore s.dupeMask s.terms s.nActive
  { s with terms := terms, nActive := nActive }

/-- `InverseSeq.GarbageCollect` from `pkg/match/inverse_seq.go`. -/
def InverseSeq.GarbageCollect (s : InverseSeq) (clock : Int) : InverseSeq :=
  if s.nActive = s.terms.length ∧ s.resets.length > 0 then
    { s with gcMark := disableGC }
  else
    let deadline := clock - s.gcRight
    let cnt := ((getTerm s.terms 0).asserts.takeWhile
      (fun e => e.Timestamp < deadline)).length
    let s := if cnt > 0 then { s with terms := shiftLeft s.terms 0 cnt } else s
    let s := s.miniGC
    let nMark := if s.nActive > 0 then
      ((getTerm s.terms 0).asserts.headD nilEntry).Timestamp + s.gcRight
    else disableGC
    let deadline := deadline - s.gcLeft
    let (resets, nMark) := s.resets.foldl
      (fun (st : List resetT × Int) reset =>
        let (acc, nMark) := st
        if reset.resets.isEmpty then (acc ++ [reset], nMark)
        else
          -- `slices.BinarySearch` on the (sorted) occurrence list:
          -- drop everything strictly below the deadline.
          let m := reset.resets.dropWhile (fun ts => ts < deadline)
          let reset := { reset with resets := m }
          let nMark := match m.head? with
            | some v => if v + s.gcLeft + s.gcRight < nMark
                then v + s.gcLeft + s.gcRight else nMark
            | none => nMark
          (acc ++ [reset], nMark))
      ([], nMark)
    { s with resets := resets, gcMark := nMark }

/-- `InverseSeq.maybeGC`. -/
def InverseSeq.maybeGC (s : InverseSeq) (clock : Int) : InverseSeq :=
  if clock < s.gcMark then s else s.GarbageCollect clock

/-- Record reset occurrences during a scan (the `// Run resets` loop
of `InverseSeq.Scan`), with the associated GC-mark updates. -/
def InverseSeq.scanResets (s : InverseSeq) (e : LogEntry) : InverseSeq :=
  let (resets, marks) := s.resets.foldl
    (fun (st : List resetT × List Int) reset =>
      let (acc, marks) := st
      if reset.matcher e.Line then
        (acc ++ [{ reset with resets := reset.resets ++ [e.Timestamp] }],
         marks ++ [e.Timestamp + s.gcLeft + s.gcRight])
      else (acc ++ [reset], marks)) ([], [])
  let s := { s with resets := resets }
  marks.foldl (fun s m => s.resetGcMark m) s

/-- Result of one iteration of the `InverseSeq.Eval` loop body:
return (wait), drop an assert, or fire the frame. -/
inductive EvalStep where
  | ret
  | drop (idx : Nat)
  | fire
deriving DecidableEq, Repr

/-- The decision taken by one iteration of `InverseSeq.Eval`: window
miss drops the position-0 assert; otherwise a reset denial drops the
denying reset's anchor assert, an unfinished denial window waits, and
a clean pass fires. -/
def InverseSeq.evalStep (s : InverseSeq) (clock : Int) : EvalStep :=
  let tStart := ((getTerm s.terms 0).asserts.headD nilEntry).Timestamp
  let tStop := ((getTerm s.terms (s.terms.length - 1)).asserts.headD nilEntry).Timestamp
  if tStop - tStart > s.window then .drop 0
  else if s.resets.isEmpty then .fire
  else
    let cr := s.checkReset clock
    if cr.2 ≠ 255 then .drop cr.2
    else if cr.1 > 0 then .ret
    else .fire

/-- Collect the fired frame of `InverseSeq.Eval`: the first assert of
each term, dropping each. -/
def fireInvFrame (terms : List termT) : List termT × List LogEntry :=
  (List.range terms.length).foldl (fun (st : List termT × List LogEntry) i =>
    let (terms, logs) := st
    (shiftLeft terms i 1, logs ++ [(getTerm terms i).asserts.headD nilEntry]))
    (terms, [])

/-- The `for r.nActive == nTerms` loop of `InverseSeq.Eval`.  The Go
loop terminates because every drop or fire iteration removes at least
one assert; the `fuel` argument (instantiated with one more than the
total assert count) makes that measure explicit. -/
def InverseSeq.evalLoop : Nat → InverseSeq → Int → InverseSeq × Hits
  | 0, s, _ => (s, noHits)
  | Nat.succ fuel, s, clock =>
    if s.nActive ≠ s.terms.length then (s, noHits)
    else
      match s.evalStep clock with
      | .ret => (s, noHits)
      | .drop idx =>
        let s := { s with terms := shiftLeft s.terms idx 1 }
        let s := s.miniGC
        InverseSeq.evalLoop fuel s clock
      | .fire =>
        let (terms, logs) := fireInvFrame s.terms
        let s := { s with terms := terms }
        let s := s.miniGC
        let (s, hits) := InverseSeq.evalLoop fuel s clock
        (s, ⟨hits.Cnt + 1, logs ++ hits.Logs⟩)

/-- `InverseSeq.Eval` from `pkg/match/inverse_seq.go`. -/
def InverseSeq.Eval (s : InverseSeq) (clock : Int) : InverseSeq × Hits :=
  InverseSeq.evalLoop (totalAsserts s.terms + 1) s clock

/-- `InverseSeq.Scan` from `pkg/match/inverse_seq.go`. -/
def InverseSeq.Scan (s : InverseSeq) (e : LogEntry) : InverseSeq × Hits :=
  if e.Timestamp < s.clock then (s, noHits)
  else
    let s := { s with clock := e.Timestamp }
    let s := s.maybeGC e.Timestamp
    -- Zero match optimization: drop the event outright when nothing
    -- is active, no lookback is required, and term 0 does not match.
    let zeroDecision : Option Bool :=
      if s.nActive > 0 then some false
      else if s.gcLeft > 0 then some false
      else if ¬ (getTerm s.terms 0).matcher e.Line then none
      else some true
    match zeroDecision with
    | none => (s, noHits)
    | some zeroMatch =>
      let s := s.scanResets e
      let s := { s with terms := appendActive s.terms s.nActive e }
      if s.nActive < s.terms.length then
        if ¬ zeroMatch ∧ ¬ (getTerm s.terms s.nActive).matcher e.Line then (s, noHits)
        else
          let s := { s with
            terms := s.terms.set s.nActive
              { getTerm s.terms s.nActive with
                asserts := (getTerm s.terms s.nActive).asserts ++ [e] },
            nActive := s.nActive + 1 }
          let s := s.resetGcMark (e.Timestamp + s.gcRight)
          if s.nActive < s.terms.length then (s, noHits)
          else s.Eval e.Timestamp
      else s.Eval e.Timestamp

/-! ## InverseSet (`pkg/match/inverse_set.go`) -/

/-- A reset specification whose term is a public term descriptor
(the `ResetT` shape used by `NewInverseSet`, whose `Term` field is
compiled via `TermT.NewMatcher`). -/
structure ResetTermT where
  Term : TermT
  Window : Int := 0
  Slide : Int := 0
  Anchor : Nat := 0
  Absolute : Bool := false

/-- Inverse set matcher state (`InverseSet`). -/
structure InverseSet where
  clock : Int
  window : Int
  gcMark : Int
  gcLeft : Int
  gcRight : Int
  hotMask : bitMaskT
  terms : List termT
  resets : List resetT
  dupeMap : List (Nat × Nat)

/-- Compile the reset terms of `NewInverseSet`. -/
def buildSetResets (C : Compilers) (nTerms : Nat) :
    List ResetTermT → Except MatchErr (List resetT)
  | [] => .ok []
  | term :: rest => do
    let m ← term.Term.NewMatcher C
    if term.Anchor ≥ nTerms then .error .anchorRange
    else do
      let tail ← buildSetResets C nTerms rest
      .ok (⟨m, [], term.Window, term.Slide, term.Anchor, term.Absolute⟩ :: tail)

/-- `NewInverseSet` from `pkg/match/inverse_set.go`. -/
def NewInverseSet (C : Compilers) (window : Int) (setTerms : List TermT)
    (resetTerms : List ResetTermT) : Except MatchErr InverseSet :=
  if setTerms.length > maxTerms then .error .tooManyTerms
  else if setTerms.length = 0 then .error .noTerms
  else do
    let (terms, dupeMap) ← buildSetTerms C setTerms 0 (countTermDupes setTerms) [] []
    let resets ← buildSetResets C setTerms.length resetTerms
    let (gcLeft, gcRight) := calcGCWindow window resets
    .ok { clock := 0, window := window, gcMark := disableGC, gcLeft := gcLeft,
          gcRight := gcRight, hotMask := ⟨0⟩, terms := terms, resets := resets,
          dupeMap := dupeMap }

/-- `anchorT` from `pkg/match/inverse_set.go`. -/
structure anchorT where
  clock : Int
  term : Int
  offset : Nat
deriving DecidableEq, Repr

/-- `anchorT.ValidTerm`. -/
def anchorT.ValidTerm (a : anchorT) : Bool :=
  a.term ≥ 0

/-- The framed tuple of an `InverseSet`: for each term the first
`dupeCount` asserts, tagged with their term index and offset
(the anchor-gathering loop of `InverseSet.checkReset`). -/
def InverseSet.frameAnchors (s : InverseSet) : List anchorT :=
  (List.range s.terms.length).foldl (fun acc i =>
    let cnt := match alookup s.dupeMap i with
      | some dupeCnt => dupeCnt
      | none => 1
    acc ++ (List.range cnt).map (fun j =>
      ⟨(((getTerm s.terms i).asserts.getD j nilEntry)).Timestamp, (i : Int), j⟩))
    []

/-- Insertion step of the anchor sort. -/
def insertAnchor (a : anchorT) : List anchorT → List anchorT
  | [] => [a]
  | b :: rest => if a.clock < b.clock then a :: b :: rest else b :: insertAnchor a rest

/-- Sort anchors by `clock` (`slices.SortFunc` in
`InverseSet.checkReset`; the source's sort is unstable, so the order
among equal timestamps is unspecified there — this embedding uses a
stable insertion sort). -/
def sortAnchors (l : List anchorT) : List anchorT :=
  l.foldl (fun acc a => insertAnchor a acc) []

/-- The reset iteration of `InverseSet.checkReset`: deny (returning
the anchor-indexed frame element), wait, or pass. -/
def checkSetResetAux (anchors : List anchorT) (stamps : List Int) (clock : Int) :
    List resetT → anchorT
  | [] => ⟨0, -1, 0⟩
  | reset :: rest =>
    let w := reset.calcWindow stamps
    if reset.resets.any (fun ts => w.1 ≤ ts ∧ ts ≤ w.2) then
      anchors.getD reset.anchor ⟨0, -1, 0⟩
    else if w.2 ≥ clock then ⟨w.2 - clock + 1, -1, 0⟩
    else checkSetResetAux anchors stamps clock rest

/-- `InverseSet.checkReset` from `pkg/match/inverse_set.go`: anchors
are sorted by timestamp, so a reset's anchor refers to the sorted
framed tuple. -/
def InverseSet.checkReset (s : InverseSet) (clock : Int) : anchorT :=
  let anchors := sortAnchors s.frameAnchors
  let stamps := anchors.map (·.clock)
  checkSetResetAux anchors stamps clock s.resets

/-- `InverseSet.frameMatch` from `pkg/match/inverse_set.go`: the term
index holding the earliest framed assert, and the first/last framed
timestamps. -/
def InverseSet.frameMatch (s : InverseSet) : Nat × Int × Int :=
  (List.range s.terms.length).foldl
    (fun (st : Nat × Int × Int) i =>
      let cnt := match alookup s.dupeMap i with
        | some dupeCnt => dupeCnt
        | none => 1
      (List.range cnt).foldl (fun (st : Nat × Int × Int) j =>
        let (minAnchor, tStart, tStop) := st
        let stamp := ((getTerm s.terms i).asserts.getD j nilEntry).Timestamp
        let (minAnchor, tStart) := if stamp < tStart then (i, stamp) else (minAnchor, tStart)
        let tStop := if stamp > tStop then stamp else tStop
        (minAnchor, tStart, tStop)) st)
    (0, disableGC, 0)

/-- `shiftAnchor`.
Modelled from the spec: the function is referenced by
`InverseSet.Eval` but not declared under `src/`.  Per the spec, a
denial "must drop the offending anchor term's earliest assert (so the
next framing is possible)"; the anchor returned by `checkReset`
carries the term index and the offset of the denied assert inside
that term's framed prefix, so the assert at that offset is removed.
Returns the term's remaining assert count, mirroring `shiftLeft`'s
return. -/
def shiftAnchor (terms : List termT) (a : anchorT) : List termT × Nat :=
  let idx := a.term.toNat
  let m := (getTerm terms idx).asserts.eraseIdx a.offset
  (terms.set idx { getTerm terms idx with asserts := m }, m.length)

/-- One iteration decision of the `InverseSet.Eval` loop. -/
def InverseSet.evalStep (s : InverseSet) (clock : Int) : EvalStep × anchorT :=
  let fm := s.frameMatch
  if fm.2.2 - fm.2.1 > s.window then (.drop fm.1, ⟨0, (fm.1 : Int), 0⟩)
  else if s.resets.isEmpty then (.fire, ⟨0, -1, 0⟩)
  else
    let anchor := s.checkReset clock
    if anchor.ValidTerm then (.drop anchor.term.toNat, anchor)
    else if anchor.clock > 0 then (.ret, anchor)
    else (.fire, anchor)

/-- Drop the denied assert in `InverseSet.Eval`: plain terms drop
their first assert; duplicate terms drop the specific framed assert
via `shiftAnchor`.  The hot mask is cleared when the term falls below
its required count. -/
def InverseSet.dropAssert (s : InverseSet) (a : anchorT) : InverseSet :=
  let idx := a.term.toNat
  let dupeCnt := alookupD s.dupeMap idx
  if dupeCnt ≤ 0 then
    let terms := shiftLeft s.terms idx 1
    let mask := if (getTerm terms idx).asserts.length = 0 then s.hotMask.Clr idx
      else s.hotMask
    { s with terms := terms, hotMask := mask }
  else
    let sa := shiftAnchor s.terms a
    let mask := if sa.2 < dupeCnt then s.hotMask.Clr idx else s.hotMask
    { s with terms := sa.1, hotMask := mask }

/-- Fire a full set frame in `InverseSet.Eval`: take the first
`dupeCount` asserts of each term and drop them. -/
def InverseSet.fireFrame (s : InverseSet) : InverseSet × List LogEntry :=
  let (logs, terms, mask) :=
    (List.range s.terms.length).foldl
      (fun (st : List LogEntry × List termT × bitMaskT) i =>
        let (logs, terms, mask) := st
        let cnt := match alookup s.dupeMap i with
          | some dupeCnt => dupeCnt
          | none => 1
        let logs := logs ++ (getTerm terms i).asserts.take cnt
        let terms := shiftLeft terms i cnt
        let mask := if (getTerm terms i).asserts.length < cnt then mask.Clr i else mask
        (logs, terms, mask))
      ([], s.terms, s.hotMask)
  ({ s with terms := terms, hotMask := mask }, logs)

/-- The `for r.hotMask.FirstN(nTerms)` loop of `InverseSet.Eval`,
with the same explicit-fuel treatment as `InverseSeq.evalLoop`. -/
def InverseSet.evalLoop : Nat → InverseSet → Int → InverseSet × Hits
  | 0, s, _ => (s, noHits)
  | Nat.succ fuel, s, clock =>
    if ¬ s.hotMask.FirstN s.terms.length then (s, noHits)
    else
      match s.evalStep clock with
      | (.ret, _) => (s, noHits)
      | (.drop _, anchor) =>
        let s := s.dropAssert anchor
        InverseSet.evalLoop fuel s clock
      | (.fire, _) =>
        let ff := s.fireFrame
        let r := InverseSet.evalLoop fuel ff.1 clock
        (r.1, ⟨r.2.Cnt + 1, ff.2 ++ r.2.Logs⟩)

/-- `InverseSet.Eval` from `pkg/match/inverse_set.go`. -/
def InverseSet.Eval (s : InverseSet) (clock : Int) : InverseSet × Hits :=
  InverseSet.evalLoop (totalAsserts s.terms + 1) s clock

/-- `InverseSet.resetGcMark`. -/
def InverseSet.resetGcMark (s : InverseSet) (nMark : Int) : InverseSet :=
  if nMark < s.gcMark then { s with gcMark := nMark } else s

/-- `InverseSet.GarbageCollect` from `pkg/match/inverse_set.go`. -/
def InverseSet.GarbageCollect (s : InverseSet) (clock : Int) : InverseSet :=
  if s.resets.length > 0 ∧ s.hotMask.FirstN s.terms.length then
    { s with gcMark := disableGC }
  else
    let deadline := clock - s.gcRight
    let (terms, mask, nMark) :=
      (List.range s.terms.length).foldl
        (fun (st : List termT × bitMaskT × Int) i =>
          let (terms, mask, nMark) := st
          let cnt := ((getTerm terms i).asserts.takeWhile
            (fun e => e.Timestamp < deadline)).length
          let (terms, mask) := if cnt > 0 then
              let terms := shiftLeft terms i cnt
              (terms, if (getTerm terms i).asserts.length = 0 then mask.Clr i else mask)
            else (terms, mask)
          let nMark := match (getTerm terms i).asserts.head? with
            | some e => if e.Timestamp + s.gcRight < nMark then e.Timestamp + s.gcRight
                else nMark
            | none => nMark
          (terms, mask, nMark))
        (s.terms, s.hotMask, disableGC)
    let deadline := deadline - s.gcLeft
    let (resets, nMark) := s.resets.foldl
      (fun (st : List resetT × Int) reset =>
        let (acc, nMark) := st
        if reset.resets.isEmpty then (acc ++ [reset], nMark)
        else
          let m := reset.resets.dropWhile (fun ts => ts < deadline)
          let reset := { reset with resets := m }
          let nMark := match m.head? with
            | some v => if v + s.gcLeft + s.gcRight < nMark
                then v + s.gcLeft + s.gcRight else nMark
            | none => nMark
          (acc ++ [reset], nMark))
      ([], nMark)
    { s with terms := terms, hotMask := mask, resets := resets, gcMark := nMark }

/-- `InverseSet.maybeGC`. -/
def InverseSet.maybeGC (s : InverseSet) (clock : Int) : InverseSet :=
  if clock < s.gcMark then s else s.GarbageCollect clock

/-- The per-term match loop of `InverseSet.Scan` (appends, hot mask
and the `resetGcMark(e.Timestamp + r.gcRight)` updates). -/
def InverseSet.scanTerms (s : InverseSet) (e : LogEntry) : InverseSet :=
  (List.range s.terms.length).foldl (fun s i =>
    if (getTerm s.terms i).matcher e.Line then
      let terms := s.terms.set i { getTerm s.terms i with
        asserts := (getTerm s.terms i).asserts ++ [e] }
      let mask := match alookup s.dupeMap i with
        | none => s.hotMask.Set i
        | some dupeCnt =>
          if (getTerm terms i).asserts.length ≥ dupeCnt then s.hotMask.Set i
          else s.hotMask
      let s := { s with terms := terms, hotMask := mask }
      s.resetGcMark (e.Timestamp + s.gcRight)
    else s) s

/-- Record reset occurrences during an `InverseSet.Scan`. -/
def InverseSet.scanResets (s : InverseSet) (e : LogEntry) : InverseSet :=
  let (resets, marks) := s.resets.foldl
    (fun (st : List resetT × List Int) reset =>
      let (acc, marks) := st
      if reset.matcher e.Line then
        (acc ++ [{ reset with resets := reset.resets ++ [e.Timestamp] }],
         marks ++ [e.Timestamp + s.gcLeft + s.gcRight])
      else (acc ++ [reset], marks)) ([], [])
  let s := { s with resets := resets }
  marks.foldl (fun s m => s.resetGcMark m) s

/-- `InverseSet.Scan` from `pkg/match/inverse_set.go`. -/
def InverseSet.Scan (s : InverseSet) (e : LogEntry) : InverseSet × Hits :=
  if e.Timestamp < s.clock then (s, noHits)
  else
    let s := { s with clock := e.Timestamp }
    let s := s.maybeGC e.Timestamp
    let s := s.scanTerms e
    if s.hotMask.Zeros ∧ s.gcLeft = 0 then (s, noHits)
    else
      let s := s.scanResets e
      if ¬ s.hotMask.FirstN s.terms.length then (s, noHits)
      else s.Eval e.Timestamp

/-! ## Reorder (`pkg/scanner/reorder.go`)

The two doubly-linked lists are embedded as `List LogEntry` (front
first).  The callback is passed as a pure function; every delivering
operation returns the list of entries it handed to the callback, in
delivery order, together with the updated state and the `done` flag.
`mLimit` is `Option Int`, `none` standing for the `math.MaxInt`
default (no memory limit). -/

/-- `nodeSize` from `pkg/scanner/reorder.go`. -/
def nodeSize : Int := 80

/-- `rnodeT.Size`: fixed overhead plus the line length. -/
def entrySize (e : LogEntry) : Int :=
  nodeSize + e.Line.length

/-- Reorder state (`ReorderT`). -/
structure ReorderT where
  window : Int
  clock : Int
  mUsed : Int
  mLimit : Option Int
  inList : List LogEntry
  ooList : List LogEntry

/-- `NewReorder` from `pkg/scanner/reorder.go` (the nil-callback
check has no counterpart for total Lean functions). -/
def NewReorder (window : Int) (memlimit : Option Int) : Except MatchErr ReorderT :=
  if window ≤ 0 then .error .duplicateTerm
  else .ok { window := window, clock := 0, mUsed := 0, mLimit := memlimit,
             inList := [], ooList := [] }

/-- `ReorderT.drain`: free both lists and zero the accounting. -/
def ReorderT.drain (s : ReorderT) : ReorderT :=
  { s with inList := [], ooList := [], clock := 0, mUsed := 0 }

/-- The `fastPath` loop over `inList`: deliver entries while the head
is not beyond the deadline; stop early when the callback asks to.
Returns `(delivered, remaining, done)`. -/
def fastPathAux (cb : LogEntry → Bool) (deadline : Int) :
    List LogEntry → List LogEntry × List LogEntry × Bool
  | [] => ([], [], false)
  | x :: rest =>
    if x.Timestamp > deadline then ([], x :: rest, false)
    else if cb x then ([x], rest, true)
    else
      let (d, rem, dn) := fastPathAux cb deadline rest
      (x :: d, rem, dn)

/-- Sum of accounted sizes over a delivered batch. -/
def sumSize (l : List LogEntry) : Int :=
  l.foldl (fun acc e => acc + entrySize e) 0

/-- `ReorderT.fastPath`. -/
def ReorderT.fastPath (cb : LogEntry → Bool) (s : ReorderT) :
    ReorderT × List LogEntry × Bool :=
  let (d, rem, dn) := fastPathAux cb (s.clock - s.window) s.inList
  if dn then (({ s with inList := rem, mUsed := s.mUsed - sumSize d }).drain, d, true)
  else ({ s with inList := rem, mUsed := s.mUsed - sumSize d }, d, false)

/-- The inner loop of `slowPath`: deliver out-of-order entries whose
timestamp is strictly below `bound`. -/
def deliverOOLt (cb : LogEntry → Bool) (bound : Int) :
    List LogEntry → List LogEntry × List LogEntry × Bool
  | [] => ([], [], false)
  | x :: rest =>
    if x.Timestamp < bound then
      if cb x then ([x], rest, true)
      else
        let (d, rem, dn) := deliverOOLt cb bound rest
        (x :: d, rem, dn)
    else ([], x :: rest, false)

/-- The trailing loop of `slowPath`: deliver out-of-order entries
whose timestamp is at most the deadline. -/
def deliverOOLe (cb : LogEntry → Bool) (bound : Int) :
    List LogEntry → List LogEntry × List LogEntry × Bool
  | [] => ([], [], false)
  | x :: rest =>
    if x.Timestamp ≤ bound then
      if cb x then ([x], rest, true)
      else
        let (d, rem, dn) := deliverOOLe cb bound rest
        (x :: d, rem, dn)
    else ([], x :: rest, false)

/-- The `slowPath` loops: merge-deliver from `inList` and `ooList`
until the in-order head passes the deadline, then flush out-of-order
entries up to the deadline.  Returns
`(delivered, inRemaining, ooRemaining, done)`. -/
def slowPathAux (cb : LogEntry → Bool) (deadline : Int) :
    List LogEntry → List LogEntry →
    List LogEntry × List LogEntry × List LogEntry × Bool
  | [], ooL =>
    let r := deliverOOLe cb deadline ooL
    (r.1, [], r.2.1, r.2.2)
  | x :: rest, ooL =>
    if x.Timestamp > deadline then
      let r := deliverOOLe cb deadline ooL
      (r.1, x :: rest, r.2.1, r.2.2)
    else
      let r1 := deliverOOLt cb x.Timestamp ooL
      if r1.2.2 then (r1.1, x :: rest, r1.2.1, true)
      else if cb x then (r1.1 ++ [x], rest, r1.2.1, true)
      else
        let r2 := slowPathAux cb deadline rest r1.2.1
        (r1.1 ++ x :: r2.1, r2.2.1, r2.2.2.1, r2.2.2.2)

/-- `ReorderT.slowPath`. -/
def ReorderT.slowPath (cb : LogEntry → Bool) (s : ReorderT) :
    ReorderT × List LogEntry × Bool :=
  let (d, inR, ooR, dn) := slowPathAux cb (s.clock - s.window) s.inList s.ooList
  let s := { s with inList := inR, ooList := ooR, mUsed := s.mUsed - sumSize d }
  if dn then (s.drain, d, true) else (s, d, false)

/-- `ReorderT._flush`: fast path when no out-of-order entries are
queued, slow path otherwise. -/
def ReorderT.flushQ (cb : LogEntry → Bool) (s : ReorderT) :
    ReorderT × List LogEntry × Bool :=
  if s.ooList.isEmpty then s.fastPath cb else s.slowPath cb

/-- `queueOutofOrder`'s back-to-front insertion scan: insert after the
last node whose timestamp is at most the entry's.  Returns the new
list together with the node whose `Size()` the source charges — the
node *after which* the entry was inserted, not the inserted node
itself (`r.mUsed += node.Size()` where `node` is the insertion
point). -/
def ooInsertAux (e : LogEntry) : List LogEntry → Option (List LogEntry × LogEntry)
  | [] => none
  | x :: xs =>
    match ooInsertAux e xs with
    | some (ys, charged) => some (x :: ys, charged)
    | none =>
      if x.Timestamp ≤ e.Timestamp then some (x :: e :: xs, x) else none

/-- `ReorderT.queueOutofOrder`: drop entries older than the window,
otherwise insert in timestamp order, charging the size of the
insertion-point node (or of the entry itself on `pushFront`). -/
def ReorderT.queueOutofOrder (s : ReorderT) (e : LogEntry) : ReorderT :=
  if e.Timestamp < s.clock - s.window then s
  else
    match ooInsertAux e s.ooList with
    | some (l, charged) => { s with ooList := l, mUsed := s.mUsed + entrySize charged }
    | none => { s with ooList := e :: s.ooList, mUsed := s.mUsed + entrySize e }

/-- `ReorderT._append`. -/
def ReorderT.appendQ (cb : LogEntry → Bool) (s : ReorderT) (e : LogEntry) :
    ReorderT × List LogEntry × Bool :=
  if e.Timestamp < s.clock then (s.queueOutofOrder e, [], false)
  else
    let s := { s with clock := e.Timestamp,
                      inList := s.inList ++ [e],
                      mUsed := s.mUsed + entrySize e }
    s.flushQ cb

/-- `_trim`'s LOOP2: deliver out-of-order entries oldest first until
the accounting is back under the limit, advancing the clock past each
delivered entry.  Returns `(delivered, ooRemaining, mUsed, clock,
done)`. -/
def trimLoop2 (cb : LogEntry → Bool) (limit window : Int) :
    Int → Int → List LogEntry → List LogEntry × List LogEntry × Int × Int × Bool
  | mUsed, clock, [] => ([], [], mUsed, clock, false)
  | mUsed, _clock, x :: rest =>
    let dn := cb x
    let mUsed := mUsed - entrySize x
    let clock := x.Timestamp + window
    if dn then ([x], rest, mUsed, clock, true)
    else if mUsed ≤ limit then ([x], rest, mUsed, clock, false)
    else
      let (d, rem, mUsed, clock, dn) := trimLoop2 cb limit window mUsed clock rest
      (x :: d, rem, mUsed, clock, dn)

/-- `_trim`'s inner out-of-order loop: deliver entries below `bound`,
stopping early on callback termination or once back under the limit.
The last flag distinguishes the under-limit early exit (Go's
`break LOOP`). -/
def trimOOInner (cb : LogEntry → Bool) (limit window bound : Int) :
    Int → Int → List LogEntry →
    List LogEntry × List LogEntry × Int × Int × Bool × Bool
  | mUsed, clock, [] => ([], [], mUsed, clock, false, false)
  | mUsed, clock, x :: rest =>
    if x.Timestamp < bound then
      let dn := cb x
      let mUsed := mUsed - entrySize x
      let clock := x.Timestamp + window
      if dn then ([x], rest, mUsed, clock, true, false)
      else if mUsed ≤ limit then ([x], rest, mUsed, clock, false, true)
      else
        let (d, rem, mUsed, clock, dn, under) :=
          trimOOInner cb limit window bound mUsed clock rest
        (x :: d, rem, mUsed, clock, dn, under)
    else ([], x :: rest, mUsed, clock, false, false)

/-- `_trim`'s outer loop over `inList`. Returns
`(delivered, inRemaining, ooRemaining, mUsed, clock, done)`. -/
def trimInLoop (cb : LogEntry → Bool) (limit window : Int) :
    Int → Int → List LogEntry → List LogEntry →
    List LogEntry × List LogEntry × List LogEntry × Int × Int × Bool
  | mUsed, clock, [], ooL => ([], [], ooL, mUsed, clock, false)
  | mUsed, clock, x :: rest, ooL =>
    if mUsed ≤ limit then ([], x :: rest, ooL, mUsed, clock, false)
    else
      let (d1, oo1, mUsed, clock, dn1, under1) :=
        trimOOInner cb limit window x.Timestamp mUsed clock ooL
      if dn1 then (d1, x :: rest, oo1, mUsed, clock, true)
      else if under1 then (d1, x :: rest, oo1, mUsed, clock, false)
      else
        let dn := cb x
        let mUsed := mUsed - entrySize x
        let clock := x.Timestamp + window
        if dn then (d1 ++ [x], rest, oo1, mUsed, clock, true)
        else
          let (d2, inR, ooR, mUsed, clock, dn2) :=
            trimInLoop cb limit window mUsed clock rest oo1
          (d1 ++ x :: d2, inR, ooR, mUsed, clock, dn2)

/-- `ReorderT._trim`: called when over limit; delivers oldest entries
regardless of the window, advancing the clock so that later arrivals
below the new clock are treated as out of order. -/
def ReorderT.trimQ (cb : LogEntry → Bool) (s : ReorderT) (limit : Int) :
    ReorderT × List LogEntry × Bool :=
  let (d1, inR, ooR, mUsed, clock, dn) :=
    trimInLoop cb limit s.window s.mUsed s.clock s.inList s.ooList
  let s := { s with inList := inR, ooList := ooR, mUsed := mUsed, clock := clock }
  if dn then (s.drain, d1, true)
  else if s.mUsed ≤ limit then (s, d1, false)
  else
    let (d2, ooR, mUsed, clock, dn) :=
      trimLoop2 cb limit s.window s.mUsed s.clock s.ooList
    let s := { s with ooList := ooR, mUsed := mUsed, clock := clock }
    if dn then (s.drain, d1 ++ d2, true) else (s, d1 ++ d2, false)

/-- `ReorderT.Append`: append, then trim if over the memory limit. -/
def ReorderT.Append (cb : LogEntry → Bool) (s : ReorderT) (e : LogEntry) :
    ReorderT × List LogEntry × Bool :=
  let (s, d, dn) := s.appendQ cb e
  match s.mLimit with
  | none => (s, d, dn)
  | some limit =>
    if s.mUsed > limit ∧ ¬ dn then
      let (s, d2, dn) := s.trimQ cb limit
      (s, d ++ d2, dn)
    else (s, d, dn)

/-- `ReorderT.AdvanceClock`: move the clock forward (ignoring
regressions) and flush eligible entries. -/
def ReorderT.AdvanceClock (cb : LogEntry → Bool) (s : ReorderT) (stamp : Int) :
    ReorderT × List LogEntry × Bool :=
  if stamp < s.clock then (s, [], false)
  else ({ s with clock := stamp }).flushQ cb

/-- Driver operations for a reorder instance. -/
inductive ROp where
  | append (e : LogEntry)
  | advance (stamp : Int)

/-- The clock in force during an operation's deliveries: the updated
clock (unchanged on regressions, which deliver nothing). -/
def opClock (s : ReorderT) : ROp → Int
  | .append e => if e.Timestamp < s.clock then s.clock else e.Timestamp
  | .advance stamp => if stamp < s.clock then s.clock else stamp

/-- Apply one driver operation. -/
def stepReorder (cb : LogEntry → Bool) (s : ReorderT) :
    ROp → ReorderT × List LogEntry × Bool
  | .append e => s.Append cb e
  | .advance stamp => s.AdvanceClock cb stamp

/-- Run a list of operations, accumulating deliveries annotated with
the clock in force when each batch was delivered, and stopping (as the
scanners do) once the callback has asked to terminate. -/
def runReorder (cb : LogEntry → Bool) (s : ReorderT) :
    List ROp → List (LogEntry × Int) × ReorderT × Bool
  | [] => ([], s, false)
  | op :: rest =>
    let c := opClock s op
    let (s1, d, dn) := stepReorder cb s op
    let dAnn := d.map (fun e => (e, c))
    if dn then (dAnn, s1, true)
    else
      let (dRest, s2, dn2) := runReorder cb s1 rest
      (dAnn ++ dRest, s2, dn2)

/-! ## Scenario helpers -/

/-- Compilers that refuse every term; the scenarios below use only
raw-substring terms, which never reach the external compilers. -/
def dummyC : Compilers :=
  ⟨fun _ => .error .compileFail, fun _ => .error .compileFail⟩

/-- Extract a successfully constructed matcher (scenarios prove
construction succeeds separately via the `Except.map` form). -/
def fromOk {α : Type} (x : Except MatchErr α) (d : α) : α :=
  match x with
  | .ok v => v
  | .error _ => d

/-- Feed a list of entries through a matcher, collecting the hits of
each scan. -/
def runScans {σ : Type} (scan : σ → LogEntry → σ × Hits) (s : σ) (es : List LogEntry) :
    σ × List Hits :=
  es.foldl (fun (st : σ × List Hits) e =>
    let (s, hs) := st
    let (s, h) := scan s e
    (s, hs ++ [h])) (s, [])

/-- A stdout entry with the given line and timestamp. -/
def en (line : String) (ts : Int) : LogEntry := ⟨line, "stdout", ts⟩

/-- A raw-substring term descriptor. -/
def rawT (v : String) : TermT := ⟨.raw, v⟩

/-- Observable view of a hit: count and log timestamps. -/
def hitView (h : Hits) : Nat × List Int := (h.Cnt, h.Logs.map (·.Timestamp))

/-- Did construction succeed? -/
def isOkB {α : Type} : Except MatchErr α → Bool
  | .ok _ => true
  | .error _ => false

/-- Zero-value matcher states, used as `fromOk` defaults in concrete
scenarios (each scenario also proves construction succeeded). -/
def mseqDefault : MatchSeq := ⟨0, 0, 0, ⟨0⟩, []⟩

/-- Zero-value `MatchSet`. -/
def msetDefault : MatchSet := ⟨0, 0, 0, ⟨0⟩, [], []⟩

/-- Zero-value `InverseSeq`. -/
def iseqDefault : InverseSeq := ⟨0, 0, 0, 0, 0, 0, ⟨0⟩, [], []⟩

/-- Zero-value `InverseSet`. -/
def isetDefault : InverseSet := ⟨0, 0, 0, 0, 0, ⟨0⟩, [], [], []⟩

/-! ## C1: MatchSeq suppresses overfire -/

/-- The C1 scenario matcher: `terms=[α,β]`, `W=10`. -/
def mseqC1 : Except MatchErr MatchSeq := NewMatchSeq dummyC 10 ["alpha", "beta"]

/-- The C1 scenario input: α@1, α@2, α@3, β@4. -/
def traceC1 : List LogEntry :=
  [en "alpha" 1, en "alpha" 2, en "alpha" 3, en "beta" 4]

/-- C1: MatchSeq suppresses overfire.  For the matcher built from
terms `[α, β]` with window 10, scanning α@1, α@2, α@3, β@4 emits no
hit on the first three scans and exactly one hit on the fourth,
consisting of the entries at timestamps 1 and 4 — not `[2,4]` or
`[3,4]`.  The trailing β@4 closes a single hit; the remaining α
candidates (2 and 3) stay queued without re-firing against the same
β, so once a trailing entry closes a sequence hit, earlier candidate
entries that could also have closed with it are not re-emitted. -/
theorem C1_matchseq_overfire :
    isOkB mseqC1 = true
    ∧ (runScans MatchSeq.Scan (fromOk mseqC1 mseqDefault) traceC1).2.map hitView
      = [(0, []), (0, []), (0, []), (1, [1, 4])]
    ∧ (runScans MatchSeq.Scan (fromOk mseqC1 mseqDefault) traceC1).1.terms.map
        (fun t => t.asserts.map (·.Timestamp))
      = [[2, 3], []] := by
  exact ⟨by decide, by decide, by decide⟩

/-! ## C2: Set completeness fails for two distinct duplicated terms -/

/-- The C2 failing matcher: `terms=[α,α,β,β]` (arity 4), window 10. -/
def msetC2 : Except MatchErr MatchSet :=
  NewMatchSet dummyC 10 [rawT "alpha", rawT "alpha", rawT "beta", rawT "beta"]

/-- C2 (code bug): for the rule `[α,α,β,β]` (arity 4, `dupeCount`
2 for each distinct term), scanning α@1, α@2, β@3 fires a hit with
only three logs `[1,2,3]` — two α entries but a single β entry — so
the hit's multiset of term indices does not equal the full term
multiset and its length is 3, not the rule's arity 4.  Cause:
`NewMatchSet` (and `NewInverseSet`) key `dupeMap` by the `setTerms`
index of a duplicate's first occurrence (here `dupeMap = {0: 2, 2:
2}`), while `Scan` looks the count up by the compiled-term index
(β is compiled term 1), so β's duplicate count is lost. -/
theorem C2_set_completeness_failure :
    isOkB msetC2 = true
    ∧ (runScans MatchSet.Scan (fromOk msetC2 msetDefault)
        [en "alpha" 1, en "alpha" 2, en "beta" 3]).2.map hitView
      = [(0, []), (0, []), (1, [1, 2, 3])]
    ∧ (fromOk msetC2 msetDefault).dupeMap = [(0, 2), (2, 2)]
    ∧ (fromOk msetC2 msetDefault).terms.length = 2 := by
  exact ⟨by decide, by decide, by decide, by decide⟩

/-! ## C3: the window bound fails for InverseSeq -/

/-- The C3 failing matcher: `terms=[α,β,γ]`, window 3, one absolute
reset `{R, window 5, slide 2, anchor 1}`. -/
def iseqC3 : Except MatchErr InverseSeq :=
  NewInverseSeq dummyC 3 ["alpha", "beta", "gamma"]
    [{ Term := "reset", Window := 5, Slide := 2, Anchor := 1, Absolute := true }]

/-- The C3 failing input. -/
def traceC3 : List LogEntry :=
  [en "alpha" 1, en "beta" 2, en "gamma" 3, en "beta" 8, en "reset" 9,
   en "beta" 12, en "reset" 13, en "zzz" 20]

/-- C3 (code bug): `InverseSeq` can emit a hit whose timestamp span
exceeds the window.  With window 3, the trace α@1, β@2, γ@3, β@8,
R@9, β@12, R@13, noop@20 fires the hit `[1, 12, 3]` at the last
scan: the two reset denials each dropped the β anchor assert,
replacing β@2 by β@8 and then by β@12 while α@1 and γ@3 stayed
framed; `Eval`'s window check compares only the first and last
*positions* (`tStop − tStart = 3 − 1 ≤ 3`), so the middle entry
β@12 escapes the bound and the emitted hit spans
`12 − 1 = 11 > 3`.  (The hit's timestamps are not even
non-decreasing, contradicting the sequence semantics as well.) -/
theorem C3_window_bound_failure :
    isOkB iseqC3 = true
    ∧ (runScans InverseSeq.Scan (fromOk iseqC3 iseqDefault) traceC3).2.map hitView
      = [(0, []), (0, []), (0, []), (0, []), (0, []), (0, []), (0, []),
         (1, [1, 12, 3])]
    ∧ (fromOk iseqC3 iseqDefault).window = 3
    ∧ ((12 : Int) - 1 > 3) := by
  exact ⟨by decide, by decide, by decide, by decide⟩

/-! ## C4: reset denial window -/

/-- The C4 scenario matcher: `terms=[α,β]`, `W=10`,
`reset={term R, window 50, absolute}`. -/
def iseqC4 : Except MatchErr InverseSeq :=
  NewInverseSeq dummyC 10 ["alpha", "beta"]
    [{ Term := "reset", Window := 50, Absolute := true }]

/-- The C4 scenario input: α@1, β@11, R@21, noop@10000. -/
def traceC4 : List LogEntry :=
  [en "alpha" 1, en "beta" 11, en "reset" 21, en "zzz" 10000]

/-- C4: reset denial windows.  First conjunct: for a framed tuple
with sorted timestamps `s[0..N-1]`, `calcWindow` returns the
inclusive interval `[anchor, anchor + width]` with
`anchor = s[reset.anchor] + reset.slide` and
`width = max 0 (reset.window + (absolute ? 0 : s[N−1] − s[0]))`
(clamped at zero when negative).  Remaining conjuncts: the
`InverseSeq` scenario `terms=[α,β]`, window 10, absolute reset
`{R, window 50}` — feeding α@1, β@11, R@21, noop@10000 produces no
hit, because the occurrence R@21 lies inside the denial window
`[1, 51]` of the framed tuple `(1, 11)` and denies it. -/
theorem C4_reset_denial_window :
    (∀ (r : resetT) (stamps : List Int) (h : stamps ≠ [])
        (ha : r.anchor < stamps.length),
      r.calcWindow stamps =
        (stamps.get ⟨r.anchor, ha⟩ + r.slide,
         stamps.get ⟨r.anchor, ha⟩ + r.slide +
           max 0 (r.window +
             (if r.absolute then 0 else stamps.getLast h - stamps.head h))))
    ∧ isOkB iseqC4 = true
    ∧ (runScans InverseSeq.Scan (fromOk iseqC4 iseqDefault) traceC4).2.map hitView
      = [(0, []), (0, []), (0, []), (0, [])]
    ∧ resetT.calcWindow ⟨fun _ => false, [], 50, 0, 0, true⟩ [1, 11] = (1, 51) := by
  refine ⟨?_, by decide, by decide, by decide⟩
  intro r stamps h ha
  unfold resetT.calcWindow
  have hget : stamps.getD r.anchor 0 = stamps.get ⟨r.anchor, ha⟩ := by
    simp [List.getD_eq_getElem?_getD, List.getElem?_eq_getElem ha]
  have hhead : stamps.headD 0 = stamps.head h := by
    cases stamps with
    | nil => exact absurd rfl h
    | cons a l => rfl
  have hlast : stamps.getLastD 0 = stamps.getLast h := by
    rw [List.getLastD_eq_getLast?, List.getLast?_eq_getLast stamps h]
    rfl
  rw [hget, hhead, hlast]
  by_cases habs : r.absolute <;>
    simp only [habs, Prod.mk.injEq, if_true, if_false, Bool.false_eq_true,
      ite_true, ite_false, true_and] <;>
    split <;> omega

/-- Witness: the formula conjunct of `C4_reset_denial_window`
applied at the scenario's own reset and framed tuple. -/
theorem C4_reset_denial_window_witness :
    resetT.calcWindow ⟨fun _ => false, [], 50, 3, 1, true⟩ [1, 11] = (14, 64) := by
  have h := C4_reset_denial_window.1 ⟨fun _ => false, [], 50, 3, 1, true⟩ [1, 11]
    (by decide) (by decide)
  exact h.trans (by decide)

/-! ## C5 counterexample: denial happens before the clock passes the stop -/

/-- State of the C4/C5 matcher after α@1, β@11: the frame `(1, 11)`
is complete and pending, its only denial window being `[1, 51]`. -/
def c5pending : InverseSeq :=
  (runScans InverseSeq.Scan (fromOk iseqC4 iseqDefault)
    [en "alpha" 1, en "beta" 11]).1

/-- C5 counterexample: the claim says the framed hit is *neither
fired nor denied* until the clock is strictly past the denial
window's stop.  Here the frame `(1, 11)` is pending with denial
window `[1, 51]`; scanning R@21 — clock 21, well before the stop
51 — already *denies* it: the matcher drops the frame (`nActive`
falls from 2 to 0, the α assert is gone) and no later eval can fire
it.  So a hit can be denied while `stop ≥ clock`, refuting the
claim at this input. -/
theorem C5_pending_gating_cex :
    c5pending.nActive = 2
    ∧ c5pending.terms.map (fun t => t.asserts.map (·.Timestamp)) = [[1], [11]]
    ∧ c5pending.resets.map (fun r => r.calcWindow c5pending.frameStamps) = [(1, 51)]
    ∧ ((21 : Int) ≤ 51)
    ∧ (InverseSeq.Scan c5pending (en "reset" 21)).2 = noHits
    ∧ (InverseSeq.Scan c5pending (en "reset" 21)).1.nActive = 0
    ∧ (InverseSeq.Scan c5pending (en "reset" 21)).1.terms.map
        (fun t => t.asserts.map (·.Timestamp)) = [[], [], []].take 2 ++ []
    ∧ (InverseSeq.Eval (InverseSeq.Scan c5pending (en "reset" 21)).1 1000000).2 = noHits := by
  refine ⟨by decide, by decide, by decide, by decide, by decide, by decide, ?_, by decide⟩
  decide

/-! ## C7: Reorder size accounting charges the wrong node -/

/-- The C7 failing run: window 10, no memory limit, appends
`{3,"aa"}`, `{1,"b"}`, `{2,"cccc"}` — the third entry is inserted
into the middle of `ooList` after the node `{1,"b"}`. -/
def reorderC7 : List (LogEntry × Int) × ReorderT × Bool :=
  runReorder (fun _ => false) ⟨10, 0, 0, none, [], []⟩
    [.append ⟨"aa", "stdout", 3⟩, .append ⟨"b", "stdout", 1⟩,
     .append ⟨"cccc", "stdout", 2⟩]

/-- C7 (code bug): after the three appends the queued nodes are
`{3,"aa"}` (inList, size 82) and `{1,"b"}`, `{2,"cccc"}` (ooList,
sizes 81 and 84), so the accounted byte count should be 247; the
instance's `mUsed` is 244 because `queueOutofOrder` charges
`node.Size()` of the node *after which* the entry was inserted
(`{1,"b"}`, size 81) instead of the inserted node's own size (84).
The claim that an out-of-order entry inserted into the middle of
`ooList` is charged its own size is exactly what the code fails to
do. -/
theorem C7_reorder_accounting_failure :
    reorderC7.2.1.mUsed = 244
    ∧ sumSize (reorderC7.2.1.inList ++ reorderC7.2.1.ooList) = 247
    ∧ reorderC7.2.1.ooList.map (fun e => (e.Timestamp, e.Line)) = [(1, "b"), (2, "cccc")]
    ∧ reorderC7.2.1.inList.map (fun e => (e.Timestamp, e.Line)) = [(3, "aa")] := by
  exact ⟨by decide, by decide, by decide, by decide⟩

/-! ## C8: non-regression -/

/-- C8: non-regression.  For every matcher, scanning an entry whose
timestamp is strictly below the current clock returns no hits and
returns the state unchanged — in particular clock, asserts, hot
mask, GC mark and reset occurrences are all untouched (the guard
returns before any mutation). -/
theorem C8_nonregression :
    (∀ (s : MatchSet) (e : LogEntry), e.Timestamp < s.clock → s.Scan e = (s, noHits))
    ∧ (∀ (s : MatchSeq) (e : LogEntry), e.Timestamp < s.clock → s.Scan e = (s, noHits))
    ∧ (∀ (s : InverseSet) (e : LogEntry), e.Timestamp < s.clock → s.Scan e = (s, noHits))
    ∧ (∀ (s : InverseSeq) (e : LogEntry), e.Timestamp < s.clock → s.Scan e = (s, noHits)) := by
  refine ⟨fun s e h => ?_, fun s e h => ?_, fun s e h => ?_, fun s e h => ?_⟩
  · rw [MatchSet.Scan, if_pos h]
  · rw [MatchSeq.Scan, if_pos h]
  · rw [InverseSet.Scan, if_pos h]
  · rw [InverseSeq.Scan, if_pos h]

/-- Witness: `C8_nonregression` applied to concrete matchers whose
clock is 5, scanning an entry at timestamp 1. -/
theorem C8_nonregression_witness :
    MatchSet.Scan ⟨5, 10, disableGC, ⟨0⟩, [], []⟩ (en "x" 1)
      = (⟨5, 10, disableGC, ⟨0⟩, [], []⟩, noHits)
    ∧ MatchSeq.Scan ⟨5, 10, 0, ⟨0⟩, []⟩ (en "x" 1)
      = (⟨5, 10, 0, ⟨0⟩, []⟩, noHits)
    ∧ InverseSet.Scan ⟨5, 10, disableGC, 0, 10, ⟨0⟩, [], [], []⟩ (en "x" 1)
      = (⟨5, 10, disableGC, 0, 10, ⟨0⟩, [], [], []⟩, noHits)
    ∧ InverseSeq.Scan ⟨5, 10, disableGC, 0, 10, 0, ⟨0⟩, [], []⟩ (en "x" 1)
      = (⟨5, 10, disableGC, 0, 10, 0, ⟨0⟩, [], []⟩, noHits) :=
  ⟨C8_nonregression.1 _ _ (by decide),
   C8_nonregression.2.1 _ _ (by decide),
   C8_nonregression.2.2.1 _ _ (by decide),
   C8_nonregression.2.2.2 _ _ (by decide)⟩

/-! ## C10: single-frame emission -/

/-- C10: a single call to `MatchSet.Scan` or `MatchSeq.Scan` returns
at most one hit, whatever the state — both scanners fire a single
frame per scan even when leftover asserts would allow another frame
later; only the inverse matchers' eval loop can return several hits
from one call. -/
theorem C10_single_frame_emission :
    (∀ (s : MatchSet) (e : LogEntry), ((s.Scan e).2).Cnt ≤ 1)
    ∧ (∀ (s : MatchSeq) (e : LogEntry), ((s.Scan e).2).Cnt ≤ 1) := by
  constructor
  · intro s e
    simp only [MatchSet.Scan]
    split
    · exact Nat.zero_le 1
    · split
      · exact Nat.zero_le 1
      · exact Nat.le_refl 1
  · intro s e
    simp only [MatchSeq.Scan]
    split
    · exact Nat.zero_le 1
    · split
      · exact Nat.zero_le 1
      · split
        · exact Nat.zero_le 1
        · exact Nat.le_refl 1

/-! ## C9: construction errors -/

/-- If every reset term compiles but some reset's anchor is at least
the number of sequence terms, reset compilation fails with the
anchor-out-of-range error (the first offending reset reports it). -/
theorem buildResets_anchor_err (C : Compilers) (n : Nat) :
    ∀ (resetTerms : List ResetT),
    (∀ rt ∈ resetTerms, ∃ m, makeMatchFunc C rt.Term = Except.ok m) →
    (∃ rt ∈ resetTerms, rt.Anchor ≥ n) →
    buildResets C n resetTerms = .error .anchorRange := by
  intro resetTerms
  induction resetTerms with
  | nil =>
    intro _ hbad
    obtain ⟨rt, h, _⟩ := hbad
    cases h
  | cons head tail ih =>
    intro hcomp hbad
    obtain ⟨m, hm⟩ := hcomp head (List.mem_cons_self _ _)
    by_cases hA : head.Anchor ≥ n
    · simp only [buildResets, hm, hA, if_true, if_pos]
      rfl
    · have htail : ∃ rt ∈ tail, rt.Anchor ≥ n := by
        obtain ⟨rt, hmem, hge⟩ := hbad
        rcases List.mem_cons.mp hmem with rfl | hmem
        · exact absurd hge hA
        · exact ⟨rt, hmem, hge⟩
      have := ih (fun rt h => hcomp rt (List.mem_cons_of_mem _ h)) htail
      simp only [buildResets, hm, hA, this, if_false, if_neg, not_false_iff]
      rfl

/-- C9: construction errors.  Zero terms fail with the no-terms
error and more than 64 terms fail with the too-many-terms error
(`NewMatchSet`; `maxTerms = 64`); a reset whose anchor index is at
least the number of terms fails with the anchor-out-of-range error
(`NewInverseSeq`, provided the earlier checks pass and all predicates
compile); compiling an empty raw-substring term fails with the
empty-term error (`makeMatchFunc`).  In each case the `Except` is an
error, so no matcher is created. -/
theorem C9_construction_errors :
    (∀ (C : Compilers) (window : Int), NewMatchSet C window [] = .error .noTerms)
    ∧ (∀ (C : Compilers) (window : Int) (ts : List TermT), ts.length > 64 →
        NewMatchSet C window ts = .error .tooManyTerms)
    ∧ (∀ (C : Compilers) (window : Int) (seqTerms : List String)
        (resetTerms : List ResetT),
        seqTerms.length ≠ 0 → seqTerms.length ≤ 64 →
        (∃ tm, buildSeqTerms C (countDupes seqTerms) seqTerms 0 = .ok tm) →
        (∀ rt ∈ resetTerms, ∃ m, makeMatchFunc C rt.Term = .ok m) →
        (∃ rt ∈ resetTerms, rt.Anchor ≥ seqTerms.length) →
        NewInverseSeq C window seqTerms resetTerms = .error .anchorRange)
    ∧ (∀ (C : Compilers), makeMatchFunc C "" = .error .emptyTerm) := by
  refine ⟨fun C w => rfl, fun C w ts h => ?_, ?_, fun C => rfl⟩
  · have : ts.length > maxTerms := h
    simp [NewMatchSet, this]
  · intro C w seqTerms resetTerms h1 h2 hbuild hcomp hbad
    obtain ⟨tm, htm⟩ := hbuild
    have hr := buildResets_anchor_err C seqTerms.length resetTerms hcomp hbad
    have h64 : ¬ seqTerms.length > 64 := by omega
    obtain ⟨termL, dupeMask⟩ := tm
    simp only [NewInverseSeq, h1, h64, htm, hr, if_false, if_neg, not_false_iff]
    rfl

/-- Witness: `C9_construction_errors` applied to concrete inputs:
65 raw terms, a single-term sequence with a reset anchored at index
3, the empty term list, and the empty term string. -/
theorem C9_construction_errors_witness :
    NewMatchSet dummyC 10 (List.replicate 65 (rawT "a")) = .error .tooManyTerms
    ∧ NewInverseSeq dummyC 10 ["alpha"] [{ Term := "reset", Anchor := 3 }]
      = .error .anchorRange
    ∧ NewMatchSet dummyC 10 [] = .error .noTerms
    ∧ makeMatchFunc dummyC "" = .error .emptyTerm := by
  refine ⟨C9_construction_errors.2.1 dummyC 10 _ (by simp), ?_,
    C9_construction_errors.1 dummyC 10, C9_construction_errors.2.2.2 dummyC⟩
  refine C9_construction_errors.2.2.1 dummyC 10 ["alpha"] [{ Term := "reset", Anchor := 3 }]
    (by decide) (by decide) ⟨_, rfl⟩ ?_ ?_
  · intro rt h
    rw [List.mem_singleton] at h
    subst h
    exact ⟨_, rfl⟩
  · exact ⟨_, List.mem_singleton_self _, by decide⟩

/-! ## C5: reset gating lemmas (InverseSeq) -/

/-- `miniGC` never touches the reset occurrences. -/
theorem InverseSeq.miniGC_resets (s : InverseSeq) : s.miniGC.resets = s.resets := by
  rcases hmc : miniGCCore s.dupeMask s.terms s.nActive with ⟨a, b⟩
  simp [InverseSeq.miniGC, hmc]

/-- If `checkResetAux` reaches a decision that is not a wait (anchor
sentinel with non-positive retry), every reset's denial window stop
lies strictly below the clock — provided no real anchor collides with
the 255 sentinel, as guaranteed by construction (anchors are term
indices `< 64`). -/
theorem checkResetAux_decided (stamps : List Int) (clock : Int) :
    ∀ (resets : List resetT) (retry : Int),
    (∀ r ∈ resets, r.anchor < 255) →
    checkResetAux stamps clock resets = (retry, 255) → retry ≤ 0 →
    ∀ r ∈ resets, (r.calcWindow stamps).2 < clock := by
  intro resets
  induction resets with
  | nil =>
    intro retry _ _ _ r hr
    cases hr
  | cons head tail ih =>
    intro retry hA hres hretry r hr
    rw [checkResetAux] at hres
    by_cases hocc : head.resets.any (fun ts =>
      (head.calcWindow stamps).1 ≤ ts ∧ ts ≤ (head.calcWindow stamps).2)
    · rw [if_pos hocc] at hres
      have : head.anchor = 255 := ((Prod.mk.injEq _ _ _ _).mp hres).2
      exact absurd this (by have := hA head (List.mem_cons_self _ _); omega)
    · rw [if_neg hocc] at hres
      by_cases hstop : (head.calcWindow stamps).2 ≥ clock
      · rw [if_pos hstop] at hres
        have : (head.calcWindow stamps).2 - clock + 1 = retry :=
          ((Prod.mk.injEq _ _ _ _).mp hres).1
        omega
      · rw [if_neg hstop] at hres
        rcases List.mem_cons.mp hr with rfl | hr
        · omega
        · exact ih retry (fun r h => hA r (List.mem_cons_of_mem _ h)) hres hretry r hr

/-- If `checkResetAux` asks to wait, some reset's denial window stop
has not yet been strictly passed by the clock. -/
theorem checkResetAux_wait (stamps : List Int) (clock : Int) :
    ∀ (resets : List resetT) (retry : Int),
    checkResetAux stamps clock resets = (retry, 255) → retry > 0 →
    ∃ r ∈ resets, (r.calcWindow stamps).2 ≥ clock := by
  intro resets
  induction resets with
  | nil =>
    intro retry hres hretry
    rw [checkResetAux] at hres
    have : retry = 0 := ((Prod.mk.injEq _ _ _ _).mp hres.symm).1
    omega
  | cons head tail ih =>
    intro retry hres hretry
    rw [checkResetAux] at hres
    by_cases hocc : head.resets.any (fun ts =>
      (head.calcWindow stamps).1 ≤ ts ∧ ts ≤ (head.calcWindow stamps).2)
    · rw [if_pos hocc] at hres
      have : (0 : Int) = retry := ((Prod.mk.injEq _ _ _ _).mp hres).1
      omega
    · rw [if_neg hocc] at hres
      by_cases hstop : (head.calcWindow stamps).2 ≥ clock
      · exact ⟨head, List.mem_cons_self _ _, hstop⟩
      · rw [if_neg hstop] at hres
        obtain ⟨r, hr, hge⟩ := ih retry hres hretry
        exact ⟨r, List.mem_cons_of_mem _ hr, hge⟩

/-- If no observed occurrence lies in any denial window but some
window's stop has not been strictly passed, `checkResetAux` waits. -/
theorem checkResetAux_no_occ_wait (stamps : List Int) (clock : Int) :
    ∀ (resets : List resetT),
    (∀ r ∈ resets, ∀ ts ∈ r.resets,
      ¬((r.calcWindow stamps).1 ≤ ts ∧ ts ≤ (r.calcWindow stamps).2)) →
    (∃ r ∈ resets, (r.calcWindow stamps).2 ≥ clock) →
    ∃ retry, retry > 0 ∧ checkResetAux stamps clock resets = (retry, 255) := by
  intro resets
  induction resets with
  | nil =>
    intro _ hsome
    obtain ⟨r, hr, _⟩ := hsome
    cases hr
  | cons head tail ih =>
    intro hno hsome
    have hocc : head.resets.any (fun ts =>
        (head.calcWindow stamps).1 ≤ ts ∧ ts ≤ (head.calcWindow stamps).2) = false := by
      rw [List.any_eq_false]
      intro ts hts
      have := hno head (List.mem_cons_self _ _) ts hts
      simpa using this
    by_cases hstop : (head.calcWindow stamps).2 ≥ clock
    · refine ⟨(head.calcWindow stamps).2 - clock + 1, by omega, ?_⟩
      rw [checkResetAux, hocc]
      simp [hstop]
    · have htail : ∃ r ∈ tail, (r.calcWindow stamps).2 ≥ clock := by
        obtain ⟨r, hr, hge⟩ := hsome
        rcases List.mem_cons.mp hr with rfl | hr
        · exact absurd hge hstop
        · exact ⟨r, hr, hge⟩
      obtain ⟨retry, hpos, heq⟩ :=
        ih (fun r h => hno r (List.mem_cons_of_mem _ h)) htail
      refine ⟨retry, hpos, ?_⟩
      rw [checkResetAux, hocc]
      simp [hstop, heq]

/-- A fire decision means every reset's denial window stop is
strictly below the clock (`InverseSeq`). -/
theorem InverseSeq.evalStep_fire_stops_past (s : InverseSeq) (clock : Int)
    (hA : ∀ r ∈ s.resets, r.anchor < 255)
    (hfire : s.evalStep clock = .fire) :
    ∀ r ∈ s.resets, (r.calcWindow s.frameStamps).2 < clock := by
  rw [InverseSeq.evalStep] at hfire
  split at hfire
  · cases hfire
  · split at hfire
    · intro r hr
      rename_i hemp
      rw [List.isEmpty_iff] at hemp
      rw [hemp] at hr
      cases hr
    · rcases hcr : s.checkReset clock with ⟨retry, anchor⟩
      rw [hcr] at hfire
      dsimp only at hfire
      by_cases ha : anchor ≠ 255
      · rw [if_pos ha] at hfire
        cases hfire
      · rw [if_neg ha] at hfire
        push_neg at ha
        subst ha
        by_cases hrt : retry > 0
        · rw [if_pos hrt] at hfire
          cases hfire
        · exact checkResetAux_decided s.frameStamps clock s.resets retry hA hcr
            (by omega)

/-- Every hit returned by the `InverseSeq` eval loop comes from a
state (with the same resets) at which the loop decided to fire. -/
theorem InverseSeq.evalLoop_hits_from_fire :
    ∀ (fuel : Nat) (s : InverseSeq) (clock : Int),
    0 < (InverseSeq.evalLoop fuel s clock).2.Cnt →
    ∃ s' : InverseSeq, s'.resets = s.resets ∧ s'.evalStep clock = .fire := by
  intro fuel
  induction fuel with
  | zero =>
    intro s clock h
    simp [InverseSeq.evalLoop, noHits] at h
  | succ fuel ih =>
    intro s clock h
    rw [InverseSeq.evalLoop] at h
    split at h
    · simp [noHits] at h
    · rcases hstep : s.evalStep clock with _ | idx | _ <;> rw [hstep] at h
      · simp [noHits] at h
      · have hres : ({ s with terms := shiftLeft s.terms idx 1 } :
            InverseSeq).miniGC.resets = s.resets := by
          rw [InverseSeq.miniGC_resets]
        obtain ⟨s', hres', hfire⟩ := ih _ clock h
        exact ⟨s', hres'.trans hres, hfire⟩
      · exact ⟨s, rfl, hstep⟩

/-- While every reset's observed occurrences avoid their denial
windows and some window's stop has not been strictly passed, the hit
is pending: `Eval` neither fires nor denies and returns the state
unchanged (`InverseSeq`). -/
theorem InverseSeq.eval_pending_unchanged (s : InverseSeq) (clock : Int)
    (hfull : s.nActive = s.terms.length)
    (hspan : ((getTerm s.terms (s.terms.length - 1)).asserts.headD nilEntry).Timestamp
      - ((getTerm s.terms 0).asserts.headD nilEntry).Timestamp ≤ s.window)
    (hno : ∀ r ∈ s.resets, ∀ ts ∈ r.resets,
      ¬((r.calcWindow s.frameStamps).1 ≤ ts ∧ ts ≤ (r.calcWindow s.frameStamps).2))
    (hsome : ∃ r ∈ s.resets, (r.calcWindow s.frameStamps).2 ≥ clock) :
    s.Eval clock = (s, noHits) := by
  obtain ⟨retry, hpos, hwait⟩ :=
    checkResetAux_no_occ_wait s.frameStamps clock s.resets hno hsome
  have hemp : s.resets.isEmpty = false := by
    obtain ⟨r, hr, _⟩ := hsome
    cases hres : s.resets with
    | nil => rw [hres] at hr; cases hr
    | cons a l => rfl
  have hstep : s.evalStep clock = .ret := by
    rw [InverseSeq.evalStep]
    rw [if_neg (by omega), hemp]
    simp only [Bool.false_eq_true, if_false]
    have hcr : s.checkReset clock = (retry, 255) := hwait
    rw [hcr]
    simp [hpos]
  rw [InverseSeq.Eval, InverseSeq.evalLoop, if_neg (by rw [hfull]; simp), hstep]

/-! ## C5: reset gating lemmas (InverseSet) -/

/-- Members of `insertAnchor` are the inserted anchor or old members. -/
theorem mem_insertAnchor (a x : anchorT) :
    ∀ (l : List anchorT), x ∈ insertAnchor a l → x = a ∨ x ∈ l := by
  intro l
  induction l with
  | nil =>
    intro h
    rw [insertAnchor] at h
    rcases List.mem_singleton.mp h with rfl
    exact Or.inl rfl
  | cons b rest ih =>
    intro h
    rw [insertAnchor] at h
    split at h
    · rcases List.mem_cons.mp h with rfl | h
      · exact Or.inl rfl
      · exact Or.inr h
    · rcases List.mem_cons.mp h with rfl | h
      · exact Or.inr (List.mem_cons_self _ _)
      · rcases ih h with rfl | h
        · exact Or.inl rfl
        · exact Or.inr (List.mem_cons_of_mem _ h)

/-- Members of `sortAnchors` come from the input list. -/
theorem mem_sortAnchors (x : anchorT) (l : List anchorT) :
    x ∈ sortAnchors l → x ∈ l := by
  rw [sortAnchors]
  suffices h : ∀ (l : List anchorT) (acc : List anchorT),
      x ∈ l.foldl (fun acc a => insertAnchor a acc) acc → x ∈ acc ∨ x ∈ l by
    intro hx
    rcases h l [] hx with h' | h'
    · cases h'
    · exact h'
  intro l
  induction l with
  | nil => exact fun acc h => Or.inl h
  | cons a rest ih =>
    intro acc h
    rcases ih (insertAnchor a acc) h with h' | h'
    · rcases mem_insertAnchor a x acc h' with rfl | h''
      · exact Or.inr (List.mem_cons_self _ _)
      · exact Or.inl h''
    · exact Or.inr (List.mem_cons_of_mem _ h')

/-- Every anchor gathered from the framed tuple carries a term index,
hence a non-negative `term` field. -/
theorem frameAnchors_term_nonneg (s : InverseSet) :
    ∀ a ∈ s.frameAnchors, 0 ≤ a.term := by
  rw [InverseSet.frameAnchors]
  suffices h : ∀ (idxs : List Nat) (acc : List anchorT),
      (∀ a ∈ acc, 0 ≤ a.term) →
      ∀ a ∈ idxs.foldl (fun acc i =>
        acc ++ (List.range (match alookup s.dupeMap i with
          | some dupeCnt => dupeCnt
          | none => 1)).map (fun j =>
            ⟨(((getTerm s.terms i).asserts.getD j nilEntry)).Timestamp, (i : Int), j⟩))
        acc, 0 ≤ a.term by
    exact h (List.range s.terms.length) [] (by intro a h'; cases h')
  intro idxs
  induction idxs with
  | nil => exact fun acc hacc a h => hacc a h
  | cons i rest ih =>
    intro acc hacc a h
    refine ih _ ?_ a h
    intro b hb
    rcases List.mem_append.mp hb with hb | hb
    · exact hacc b hb
    · obtain ⟨j, _, rfl⟩ := List.mem_map.mp hb
      exact Int.ofNat_nonneg i

/-- Anchors produced by the `InverseSet` frame, after sorting, have
non-negative `term` fields. -/
theorem sortedFrameAnchors_term_nonneg (s : InverseSet) :
    ∀ a ∈ sortAnchors s.frameAnchors, 0 ≤ a.term :=
  fun a h => frameAnchors_term_nonneg s a (mem_sortAnchors a s.frameAnchors h)

/-- Set-side counterpart of `checkResetAux_decided`: a decision that
is neither a denial nor a wait implies every stop is strictly past. -/
theorem checkSetResetAux_decided (anchors : List anchorT) (stamps : List Int)
    (clock : Int) :
    ∀ (resets : List resetT) (a : anchorT),
    (∀ x ∈ anchors, 0 ≤ x.term) →
    (∀ r ∈ resets, r.anchor < anchors.length) →
    checkSetResetAux anchors stamps clock resets = a → a.term < 0 → a.clock ≤ 0 →
    ∀ r ∈ resets, (r.calcWindow stamps).2 < clock := by
  intro resets
  induction resets with
  | nil =>
    intro a _ _ _ _ _ r hr
    cases hr
  | cons head tail ih =>
    intro a hnn hrange hres hterm hclock r hr
    rw [checkSetResetAux] at hres
    by_cases hocc : head.resets.any (fun ts =>
      (head.calcWindow stamps).1 ≤ ts ∧ ts ≤ (head.calcWindow stamps).2)
    · rw [if_pos hocc] at hres
      have hmem : anchors.getD head.anchor ⟨0, -1, 0⟩ ∈ anchors := by
        have hlt := hrange head (List.mem_cons_self _ _)
        rw [List.getD_eq_getElem?_getD, List.getElem?_eq_getElem hlt]
        simp only [Option.getD_some]
        exact List.getElem_mem hlt
      have := hnn _ hmem
      rw [hres] at this
      omega
    · rw [if_neg hocc] at hres
      by_cases hstop : (head.calcWindow stamps).2 ≥ clock
      · rw [if_pos hstop] at hres
        rw [← hres] at hclock
        simp only at hclock
        omega
      · rw [if_neg hstop] at hres
        rcases List.mem_cons.mp hr with rfl | hr
        · omega
        · exact ih a hnn (fun r h => hrange r (List.mem_cons_of_mem _ h)) hres
            hterm hclock r hr

/-- Set-side counterpart of `checkResetAux_wait`. -/
theorem checkSetResetAux_wait (anchors : List anchorT) (stamps : List Int)
    (clock : Int) :
    ∀ (resets : List resetT) (a : anchorT),
    (∀ x ∈ anchors, 0 ≤ x.term) →
    checkSetResetAux anchors stamps clock resets = a → a.term < 0 → a.clock > 0 →
    ∃ r ∈ resets, (r.calcWindow stamps).2 ≥ clock := by
  intro resets
  induction resets with
  | nil =>
    intro a _ hres hterm hclock
    rw [checkSetResetAux] at hres
    rw [← hres] at hclock
    simp only at hclock
    omega
  | cons head tail ih =>
    intro a hnn hres hterm hclock
    rw [checkSetResetAux] at hres
    by_cases hocc : head.resets.any (fun ts =>
      (head.calcWindow stamps).1 ≤ ts ∧ ts ≤ (head.calcWindow stamps).2)
    · rw [if_pos hocc] at hres
      by_cases hin : head.anchor < anchors.length
      · have hmem : anchors.getD head.anchor ⟨0, -1, 0⟩ ∈ anchors := by
          rw [List.getD_eq_getElem?_getD, List.getElem?_eq_getElem hin]
          simp only [Option.getD_some]
          exact List.getElem_mem hin
        have := hnn _ hmem
        rw [hres] at this
        omega
      · have : anchors.getD head.anchor ⟨0, -1, 0⟩ = ⟨0, -1, 0⟩ := by
          rw [List.getD_eq_getElem?_getD, List.getElem?_eq_none (by omega)]
          rfl
        rw [this] at hres
        rw [← hres] at hclock
        simp only at hclock
        omega
    · rw [if_neg hocc] at hres
      by_cases hstop : (head.calcWindow stamps).2 ≥ clock
      · exact ⟨head, List.mem_cons_self _ _, hstop⟩
      · rw [if_neg hstop] at hres
        obtain ⟨r, hr, hge⟩ := ih a hnn hres hterm hclock
        exact ⟨r, List.mem_cons_of_mem _ hr, hge⟩

/-- Set-side counterpart of `checkResetAux_no_occ_wait`. -/
theorem checkSetResetAux_no_occ_wait (anchors : List anchorT) (stamps : List Int)
    (clock : Int) :
    ∀ (resets : List resetT),
    (∀ r ∈ resets, ∀ ts ∈ r.resets,
      ¬((r.calcWindow stamps).1 ≤ ts ∧ ts ≤ (r.calcWindow stamps).2)) →
    (∃ r ∈ resets, (r.calcWindow stamps).2 ≥ clock) →
    ∃ retry : Int, retry > 0 ∧
      checkSetResetAux anchors stamps clock resets = ⟨retry, -1, 0⟩ := by
  intro resets
  induction resets with
  | nil =>
    intro _ hsome
    obtain ⟨r, hr, _⟩ := hsome
    cases hr
  | cons head tail ih =>
    intro hno hsome
    have hocc : head.resets.any (fun ts =>
        (head.calcWindow stamps).1 ≤ ts ∧ ts ≤ (head.calcWindow stamps).2) = false := by
      rw [List.any_eq_false]
      intro ts hts
      have := hno head (List.mem_cons_self _ _) ts hts
      simpa using this
    by_cases hstop : (head.calcWindow stamps).2 ≥ clock
    · refine ⟨(head.calcWindow stamps).2 - clock + 1, by omega, ?_⟩
      rw [checkSetResetAux, hocc]
      simp [hstop]
    · have htail : ∃ r ∈ tail, (r.calcWindow stamps).2 ≥ clock := by
        obtain ⟨r, hr, hge⟩ := hsome
        rcases List.mem_cons.mp hr with rfl | hr
        · exact absurd hge hstop
        · exact ⟨r, hr, hge⟩
      obtain ⟨retry, hpos, heq⟩ :=
        ih (fun r h => hno r (List.mem_cons_of_mem _ h)) htail
      refine ⟨retry, hpos, ?_⟩
      rw [checkSetResetAux, hocc]
      simp [hstop, heq]

/-- The sorted framed timestamps used by `InverseSet.checkReset`. -/
def InverseSet.sortedStamps (s : InverseSet) : List Int :=
  (sortAnchors s.frameAnchors).map (·.clock)

/-- A fire decision means every reset's denial window stop is
strictly below the clock (`InverseSet`). -/
theorem InverseSet.setEvalStep_fire_stops_past (s : InverseSet) (clock : Int)
    (hrange : ∀ r ∈ s.resets, r.anchor < (sortAnchors s.frameAnchors).length)
    (hfire : (s.evalStep clock).1 = .fire) :
    ∀ r ∈ s.resets, (r.calcWindow s.sortedStamps).2 < clock := by
  rw [InverseSet.evalStep] at hfire
  split at hfire
  · cases hfire
  · split at hfire
    · intro r hr
      rename_i hemp
      rw [List.isEmpty_iff] at hemp
      rw [hemp] at hr
      cases hr
    · by_cases hv : (s.checkReset clock).ValidTerm
      · rw [if_pos hv] at hfire
        cases hfire
      · rw [if_neg hv] at hfire
        by_cases hc : (s.checkReset clock).clock > 0
        · rw [if_pos hc] at hfire
          cases hfire
        · rw [anchorT.ValidTerm] at hv
          simp only [decide_eq_true_eq, not_le] at hv
          exact checkSetResetAux_decided (sortAnchors s.frameAnchors) s.sortedStamps
            clock s.resets (s.checkReset clock) (sortedFrameAnchors_term_nonneg s)
            hrange rfl (by omega) (by omega)

/-- `dropAssert` never touches the reset occurrences. -/
theorem InverseSet.dropAssert_resets (s : InverseSet) (a : anchorT) :
    (s.dropAssert a).resets = s.resets := by
  rw [InverseSet.dropAssert]
  split <;> rfl

/-- `fireFrame` never touches the reset occurrences. -/
theorem InverseSet.fireFrame_resets (s : InverseSet) :
    s.fireFrame.1.resets = s.resets := by
  rw [InverseSet.fireFrame]

/-- Every hit returned by the `InverseSet` eval loop comes from a
state (with the same resets) at which the loop decided to fire. -/
theorem InverseSet.setEvalLoop_hits_from_fire :
    ∀ (fuel : Nat) (s : InverseSet) (clock : Int),
    0 < (InverseSet.evalLoop fuel s clock).2.Cnt →
    ∃ s' : InverseSet, s'.resets = s.resets ∧ (s'.evalStep clock).1 = .fire := by
  intro fuel
  induction fuel with
  | zero =>
    intro s clock h
    simp [InverseSet.evalLoop, noHits] at h
  | succ fuel ih =>
    intro s clock h
    rw [InverseSet.evalLoop] at h
    split at h
    · simp [noHits] at h
    · rcases hstep : s.evalStep clock with ⟨step, anchor⟩
      rw [hstep] at h
      cases step with
      | ret => simp [noHits] at h
      | drop idx =>
        obtain ⟨s', hres', hfire⟩ := ih _ clock h
        rw [InverseSet.dropAssert_resets] at hres'
        exact ⟨s', hres', hfire⟩
      | fire => exact ⟨s, rfl, by rw [hstep]⟩

/-- While every reset's observed occurrences avoid their denial
windows and some window's stop has not been strictly passed, the hit
is pending: `Eval` neither fires nor denies and returns the state
unchanged (`InverseSet`). -/
theorem InverseSet.setEval_pending_unchanged (s : InverseSet) (clock : Int)
    (hfull : s.hotMask.FirstN s.terms.length = true)
    (hspan : (s.frameMatch).2.2 - (s.frameMatch).2.1 ≤ s.window)
    (hno : ∀ r ∈ s.resets, ∀ ts ∈ r.resets,
      ¬((r.calcWindow s.sortedStamps).1 ≤ ts ∧ ts ≤ (r.calcWindow s.sortedStamps).2))
    (hsome : ∃ r ∈ s.resets, (r.calcWindow s.sortedStamps).2 ≥ clock) :
    s.Eval clock = (s, noHits) := by
  obtain ⟨retry, hpos, hwait⟩ :=
    checkSetResetAux_no_occ_wait (sortAnchors s.frameAnchors) s.sortedStamps clock
      s.resets hno hsome
  have hemp : s.resets.isEmpty = false := by
    obtain ⟨r, hr, _⟩ := hsome
    cases hres : s.resets with
    | nil => rw [hres] at hr; cases hr
    | cons a l => rfl
  have hstep : s.evalStep clock = (.ret, ⟨retry, -1, 0⟩) := by
    rw [InverseSet.evalStep]
    rw [if_neg (by omega), hemp]
    simp only [Bool.false_eq_true, if_false]
    have hcr : s.checkReset clock = ⟨retry, -1, 0⟩ := hwait
    rw [hcr]
    have hv : anchorT.ValidTerm ⟨retry, -1, 0⟩ = false := by
      simp [anchorT.ValidTerm]
    rw [hv]
    simp [hpos]
  rw [InverseSet.Eval, InverseSet.evalLoop, if_neg (by rw [hfull]; simp), hstep]

/-- C5 (amended): pending gating.  An inverse matcher never *fires*
a framed hit while some reset's denial window stop is at least the
current clock: a fire decision implies every stop is strictly past
(conjuncts 1 and 5), and every hit the eval loop returns stems from
such a fire decision (conjuncts 2 and 6).  While no observed reset
occurrence lies in any denial window and some stop has not been
strictly passed, the hit is pending — eval neither fires nor denies
and leaves the state unchanged (conjuncts 3 and 7) — and whenever
eval waits, some stop is at least the clock, so a caller can force
the decision by calling eval with a clock beyond every stop
(conjuncts 4 and 8).  The original claim's stronger reading — that
the hit is never *denied* before the clock passes the stop — is
false: an already-observed occurrence inside the denial window
denies immediately (see the counterexample). -/
theorem C5_pending_gating_amended :
    (∀ (s : InverseSeq) (clock : Int),
      (∀ r ∈ s.resets, r.anchor < 255) →
      s.evalStep clock = .fire →
      ∀ r ∈ s.resets, (r.calcWindow s.frameStamps).2 < clock)
    ∧ (∀ (fuel : Nat) (s : InverseSeq) (clock : Int),
      0 < (InverseSeq.evalLoop fuel s clock).2.Cnt →
      ∃ s' : InverseSeq, s'.resets = s.resets ∧ s'.evalStep clock = .fire)
    ∧ (∀ (s : InverseSeq) (clock : Int),
      s.nActive = s.terms.length →
      ((getTerm s.terms (s.terms.length - 1)).asserts.headD nilEntry).Timestamp
        - ((getTerm s.terms 0).asserts.headD nilEntry).Timestamp ≤ s.window →
      (∀ r ∈ s.resets, ∀ ts ∈ r.resets,
        ¬((r.calcWindow s.frameStamps).1 ≤ ts ∧ ts ≤ (r.calcWindow s.frameStamps).2)) →
      (∃ r ∈ s.resets, (r.calcWindow s.frameStamps).2 ≥ clock) →
      s.Eval clock = (s, noHits))
    ∧ (∀ (s : InverseSeq) (clock retry : Int),
      s.checkReset clock = (retry, 255) → retry > 0 →
      ∃ r ∈ s.resets, (r.calcWindow s.frameStamps).2 ≥ clock)
    ∧ (∀ (s : InverseSet) (clock : Int),
      (∀ r ∈ s.resets, r.anchor < (sortAnchors s.frameAnchors).length) →
      (s.evalStep clock).1 = .fire →
      ∀ r ∈ s.resets, (r.calcWindow s.sortedStamps).2 < clock)
    ∧ (∀ (fuel : Nat) (s : InverseSet) (clock : Int),
      0 < (InverseSet.evalLoop fuel s clock).2.Cnt →
      ∃ s' : InverseSet, s'.resets = s.resets ∧ (s'.evalStep clock).1 = .fire)
    ∧ (∀ (s : InverseSet) (clock : Int),
      s.hotMask.FirstN s.terms.length = true →
      (s.frameMatch).2.2 - (s.frameMatch).2.1 ≤ s.window →
      (∀ r ∈ s.resets, ∀ ts ∈ r.resets,
        ¬((r.calcWindow s.sortedStamps).1 ≤ ts ∧ ts ≤ (r.calcWindow s.sortedStamps).2)) →
      (∃ r ∈ s.resets, (r.calcWindow s.sortedStamps).2 ≥ clock) →
      s.Eval clock = (s, noHits))
    ∧ (∀ (s : InverseSet) (clock : Int) (a : anchorT),
      s.checkReset clock = a → a.term < 0 → a.clock > 0 →
      ∃ r ∈ s.resets, (r.calcWindow s.sortedStamps).2 ≥ clock) :=
  ⟨InverseSeq.evalStep_fire_stops_past,
   InverseSeq.evalLoop_hits_from_fire,
   InverseSeq.eval_pending_unchanged,
   fun s clock retry h1 h2 => checkResetAux_wait s.frameStamps clock s.resets retry h1 h2,
   InverseSet.setEvalStep_fire_stops_past,
   InverseSet.setEvalLoop_hits_from_fire,
   InverseSet.setEval_pending_unchanged,
   fun s clock a h1 h2 h3 => checkSetResetAux_wait (sortAnchors s.frameAnchors)
     s.sortedStamps clock s.resets a (sortedFrameAnchors_term_nonneg s) h1 h2 h3⟩

/-- A concrete pending `InverseSeq`: one framed term at timestamp 1
and an absolute reset window `[1, 51]` with no occurrences. -/
def c5wSeq : InverseSeq :=
  { clock := 1, window := 10, gcMark := disableGC, gcLeft := 0, gcRight := 61,
    nActive := 1, dupeMask := ⟨0⟩,
    terms := [⟨makeRawMatch "alpha", [en "alpha" 1]⟩],
    resets := [⟨makeRawMatch "reset", [], 50, 0, 0, true⟩] }

/-- A concrete pending `InverseSet` with the same frame and reset. -/
def c5wSet : InverseSet :=
  { clock := 1, window := 10, gcMark := disableGC, gcLeft := 0, gcRight := 61,
    hotMask := ⟨1⟩, terms := [⟨makeRawMatch "alpha", [en "alpha" 1]⟩],
    resets := [⟨makeRawMatch "reset", [], 50, 0, 0, true⟩], dupeMap := [] }

/-- Witness: `C5_pending_gating_amended` applied to the concrete
pending states — at clock 5 (inside the denial window `[1, 51]`) eval
waits and leaves both matchers untouched, and at clock 100 (past the
stop 51) both matchers fire with every stop strictly below the
clock. -/
theorem C5_pending_gating_amended_witness :
    (∀ r ∈ c5wSeq.resets, (r.calcWindow c5wSeq.frameStamps).2 < 100)
    ∧ (∃ s' : InverseSeq, s'.resets = c5wSeq.resets ∧ s'.evalStep 100 = .fire)
    ∧ c5wSeq.Eval 5 = (c5wSeq, noHits)
    ∧ (∃ r ∈ c5wSeq.resets, (r.calcWindow c5wSeq.frameStamps).2 ≥ 5)
    ∧ (∀ r ∈ c5wSet.resets, (r.calcWindow c5wSet.sortedStamps).2 < 100)
    ∧ (∃ s' : InverseSet, s'.resets = c5wSet.resets ∧ (s'.evalStep 100).1 = .fire)
    ∧ c5wSet.Eval 5 = (c5wSet, noHits)
    ∧ (∃ r ∈ c5wSet.resets, (r.calcWindow c5wSet.sortedStamps).2 ≥ 5) := by
  have hmemSeq : ∀ r ∈ c5wSeq.resets, r = (⟨makeRawMatch "reset", [], 50, 0, 0, true⟩ : resetT) := by
    intro r hr
    exact List.mem_singleton.mp hr
  have hmemSet : ∀ r ∈ c5wSet.resets, r = (⟨makeRawMatch "reset", [], 50, 0, 0, true⟩ : resetT) := by
    intro r hr
    exact List.mem_singleton.mp hr
  refine ⟨?_, ?_, ?_, ?_, ?_, ?_, ?_, ?_⟩
  · exact C5_pending_gating_amended.1 c5wSeq 100
      (fun r hr => by rw [hmemSeq r hr]; decide) (by decide)
  · exact C5_pending_gating_amended.2.1 1 c5wSeq 100 (by decide)
  · exact C5_pending_gating_amended.2.2.1 c5wSeq 5 (by decide) (by decide)
      (fun r hr ts hts => by rw [hmemSeq r hr] at hts; cases hts)
      ⟨_, List.mem_singleton_self _, by decide⟩
  · exact C5_pending_gating_amended.2.2.2.1 c5wSeq 5 47 (by decide) (by decide)
  · exact C5_pending_gating_amended.2.2.2.2.1 c5wSet 100
      (fun r hr => by rw [hmemSet r hr]; decide) (by decide)
  · exact C5_pending_gating_amended.2.2.2.2.2.1 1 c5wSet 100 (by decide)
  · exact C5_pending_gating_amended.2.2.2.2.2.2.1 c5wSet 5 (by decide) (by decide)
      (fun r hr ts hts => by rw [hmemSet r hr] at hts; cases hts)
      ⟨_, List.mem_singleton_self _, by decide⟩
  · exact C5_pending_gating_amended.2.2.2.2.2.2.2 c5wSet 5 ⟨47, -1, 0⟩
      (by decide) (by decide) (by decide)

/-! ## C6: Reorder delivers in non-decreasing timestamp order -/

/-- Timestamp order on entries. -/
def tle (a b : LogEntry) : Prop := a.Timestamp ≤ b.Timestamp

theorem tle_trans {a b c : LogEntry} (h1 : tle a b) (h2 : tle b c) : tle a c :=
  le_trans h1 h2

/-- `fastPathAux` splits its input: delivered prefix (all at or below
the deadline) followed by the remainder; without cooperative
termination the remainder sits strictly beyond the deadline. -/
theorem fastPathAux_spec (cb : LogEntry → Bool) (deadline : Int) :
    ∀ l : List LogEntry, List.Pairwise tle l →
    (fastPathAux cb deadline l).1 ++ (fastPathAux cb deadline l).2.1 = l
    ∧ (∀ x ∈ (fastPathAux cb deadline l).1, x.Timestamp ≤ deadline)
    ∧ ((fastPathAux cb deadline l).2.2 = false →
        ∀ x ∈ (fastPathAux cb deadline l).2.1, deadline < x.Timestamp) := by
  intro l
  induction l with
  | nil => exact fun _ => ⟨rfl, by simp [fastPathAux], by simp [fastPathAux]⟩
  | cons x rest ih =>
    intro hp
    have hxr : ∀ y ∈ rest, tle x y := fun y hy => (List.pairwise_cons.mp hp).1 y hy
    have hpr : List.Pairwise tle rest := (List.pairwise_cons.mp hp).2
    rw [fastPathAux]
    by_cases hd : x.Timestamp > deadline
    · rw [if_pos hd]
      refine ⟨rfl, by simp, fun _ y hy => ?_⟩
      rcases List.mem_cons.mp hy with rfl | hy
      · omega
      · have := hxr y hy
        rw [tle] at this
        omega
    · rw [if_neg hd]
      by_cases hcb : cb x
      · rw [if_pos hcb]
        refine ⟨rfl, fun y hy => ?_, by simp⟩
        rcases List.mem_singleton.mp hy with rfl
        omega
      · rw [if_neg hcb]
        obtain ⟨heq, hle, hrem⟩ := ih hpr
        refine ⟨?_, fun y hy => ?_, fun hdn y hy => ?_⟩
        · simpa using heq
        · rcases List.mem_cons.mp hy with rfl | hy
          · omega
          · exact hle y hy
        · exact hrem hdn y hy

/-- `deliverOOLt` splits its input: delivered prefix strictly below
the bound, remainder at or beyond it (when not terminated). -/
theorem deliverOOLt_spec (cb : LogEntry → Bool) (bound : Int) :
    ∀ l : List LogEntry, List.Pairwise tle l →
    (deliverOOLt cb bound l).1 ++ (deliverOOLt cb bound l).2.1 = l
    ∧ (∀ x ∈ (deliverOOLt cb bound l).1, x.Timestamp < bound)
    ∧ ((deliverOOLt cb bound l).2.2 = false →
        ∀ x ∈ (deliverOOLt cb bound l).2.1, bound ≤ x.Timestamp) := by
  intro l
  induction l with
  | nil => exact fun _ => ⟨rfl, by simp [deliverOOLt], by simp [deliverOOLt]⟩
  | cons x rest ih =>
    intro hp
    have hxr : ∀ y ∈ rest, tle x y := fun y hy => (List.pairwise_cons.mp hp).1 y hy
    have hpr : List.Pairwise tle rest := (List.pairwise_cons.mp hp).2
    rw [deliverOOLt]
    by_cases hd : x.Timestamp < bound
    · rw [if_pos hd]
      by_cases hcb : cb x
      · rw [if_pos hcb]
        refine ⟨rfl, fun y hy => ?_, by simp⟩
        rcases List.mem_singleton.mp hy with rfl
        omega
      · rw [if_neg hcb]
        obtain ⟨heq, hle, hrem⟩ := ih hpr
        refine ⟨by simpa using heq, fun y hy => ?_, fun hdn y hy => hrem hdn y hy⟩
        rcases List.mem_cons.mp hy with rfl | hy
        · omega
        · exact hle y hy
    · rw [if_neg hd]
      refine ⟨rfl, by simp, fun _ y hy => ?_⟩
      rcases List.mem_cons.mp hy with rfl | hy
      · omega
      · have := hxr y hy
        rw [tle] at this
        omega

/-- `deliverOOLe` splits its input: delivered prefix at or below the
bound, remainder strictly beyond it (when not terminated). -/
theorem deliverOOLe_spec (cb : LogEntry → Bool) (bound : Int) :
    ∀ l : List LogEntry, List.Pairwise tle l →
    (deliverOOLe cb bound l).1 ++ (deliverOOLe cb bound l).2.1 = l
    ∧ (∀ x ∈ (deliverOOLe cb bound l).1, x.Timestamp ≤ bound)
    ∧ ((deliverOOLe cb bound l).2.2 = false →
        ∀ x ∈ (deliverOOLe cb bound l).2.1, bound < x.Timestamp) := by
  intro l
  induction l with
  | nil => exact fun _ => ⟨rfl, by simp [deliverOOLe], by simp [deliverOOLe]⟩
  | cons x rest ih =>
    intro hp
    have hxr : ∀ y ∈ rest, tle x y := fun y hy => (List.pairwise_cons.mp hp).1 y hy
    have hpr : List.Pairwise tle rest := (List.pairwise_cons.mp hp).2
    rw [deliverOOLe]
    by_cases hd : x.Timestamp ≤ bound
    · rw [if_pos hd]
      by_cases hcb : cb x
      · rw [if_pos hcb]
        refine ⟨rfl, fun y hy => ?_, by simp⟩
        rcases List.mem_singleton.mp hy with rfl
        omega
      · rw [if_neg hcb]
        obtain ⟨heq, hle, hrem⟩ := ih hpr
        refine ⟨by simpa using heq, fun y hy => ?_, fun hdn y hy => hrem hdn y hy⟩
        rcases List.mem_cons.mp hy with rfl | hy
        · omega
        · exact hle y hy
    · rw [if_neg hd]
      refine ⟨rfl, by simp, fun _ y hy => ?_⟩
      rcases List.mem_cons.mp hy with rfl | hy
      · omega
      · have := hxr y hy
        rw [tle] at this
        omega

/-- `slowPathAux` merge-delivers in timestamp order: the delivered
batch is sorted, bounded by the deadline, drawn from the two input
queues and bounded below by any common lower bound of the queues;
both remainders are sorted sub-collections of their queues, and when
the callback has not terminated the run they lie strictly beyond the
deadline. -/
theorem slowPathAux_spec (cb : LogEntry → Bool) (deadline : Int) :
    ∀ (inL ooL : List LogEntry),
    List.Pairwise tle inL → List.Pairwise tle ooL →
    List.Pairwise tle (slowPathAux cb deadline inL ooL).1
    ∧ (∀ x ∈ (slowPathAux cb deadline inL ooL).1, x.Timestamp ≤ deadline)
    ∧ (∀ x ∈ (slowPathAux cb deadline inL ooL).1, x ∈ inL ∨ x ∈ ooL)
    ∧ (∀ m : Int, (∀ x ∈ inL, m ≤ x.Timestamp) → (∀ x ∈ ooL, m ≤ x.Timestamp) →
        ∀ x ∈ (slowPathAux cb deadline inL ooL).1, m ≤ x.Timestamp)
    ∧ List.Pairwise tle (slowPathAux cb deadline inL ooL).2.1
    ∧ List.Pairwise tle (slowPathAux cb deadline inL ooL).2.2.1
    ∧ (∀ x ∈ (slowPathAux cb deadline inL ooL).2.1, x ∈ inL)
    ∧ (∀ x ∈ (slowPathAux cb deadline inL ooL).2.2.1, x ∈ ooL)
    ∧ ((slowPathAux cb deadline inL ooL).2.2.2 = false →
        (∀ x ∈ (slowPathAux cb deadline inL ooL).2.1, deadline < x.Timestamp)
        ∧ (∀ x ∈ (slowPathAux cb deadline inL ooL).2.2.1, deadline < x.Timestamp)) := by
  intro inL
  induction inL with
  | nil =>
    intro ooL hpin hpoo
    obtain ⟨hsplit, hle, hrem⟩ := deliverOOLe_spec cb deadline ooL hpoo
    rw [slowPathAux]
    rcases hdl : deliverOOLe cb deadline ooL with ⟨d0, rem0, dn0⟩
    rw [hdl] at hsplit hle hrem
    dsimp only at hsplit hle hrem ⊢
    have hdsb : List.Sublist d0 ooL := hsplit ▸ List.sublist_append_left d0 rem0
    have hrsb : List.Sublist rem0 ooL := hsplit ▸ List.sublist_append_right d0 rem0
    refine ⟨hpoo.sublist hdsb, hle, fun x hx => Or.inr (hdsb.mem hx), ?_,
      List.Pairwise.nil, hpoo.sublist hrsb, by simp, fun x hx => hrsb.mem hx,
      fun hdn => ⟨by simp, hrem hdn⟩⟩
    intro m _ hoo x hx
    exact hoo x (hdsb.mem hx)
  | cons x rest ih =>
    intro ooL hpin hpoo
    have hxr : ∀ y ∈ rest, tle x y := fun y hy => (List.pairwise_cons.mp hpin).1 y hy
    have hpr : List.Pairwise tle rest := (List.pairwise_cons.mp hpin).2
    rw [slowPathAux]
    by_cases hd : x.Timestamp > deadline
    · rw [if_pos hd]
      obtain ⟨hsplit, hle, hrem⟩ := deliverOOLe_spec cb deadline ooL hpoo
      rcases hdl : deliverOOLe cb deadline ooL with ⟨d0, rem0, dn0⟩
      rw [hdl] at hsplit hle hrem
      dsimp only at hsplit hle hrem ⊢
      have hdsb : List.Sublist d0 ooL := hsplit ▸ List.sublist_append_left d0 rem0
      have hrsb : List.Sublist rem0 ooL := hsplit ▸ List.sublist_append_right d0 rem0
      refine ⟨hpoo.sublist hdsb, hle, fun y hy => Or.inr (hdsb.mem hy), ?_,
        hpin, hpoo.sublist hrsb, fun y hy => hy, fun y hy => hrsb.mem hy,
        fun hdn => ⟨fun y hy => ?_, hrem hdn⟩⟩
      · intro m _ hoo y hy
        exact hoo y (hdsb.mem hy)
      · rcases List.mem_cons.mp hy with rfl | hy
        · omega
        · have := hxr y hy
          rw [tle] at this
          omega
    · rw [if_neg hd]
      obtain ⟨hsplit1, hlt1, hrem1⟩ := deliverOOLt_spec cb x.Timestamp ooL hpoo
      rcases hdl : deliverOOLt cb x.Timestamp ooL with ⟨d1, oo1, dn1⟩
      rw [hdl] at hsplit1 hlt1 hrem1
      dsimp only at hsplit1 hlt1 hrem1 ⊢
      have hd1sub : List.Sublist d1 ooL := hsplit1 ▸ List.sublist_append_left d1 oo1
      have hoo1sub : List.Sublist oo1 ooL := hsplit1 ▸ List.sublist_append_right d1 oo1
      have hpd1 : List.Pairwise tle d1 := hpoo.sublist hd1sub
      have hpoo1 : List.Pairwise tle oo1 := hpoo.sublist hoo1sub
      by_cases hdn1 : dn1
      · rw [if_pos hdn1]
        dsimp only
        refine ⟨hpd1, fun y hy => ?_, fun y hy => Or.inr (hd1sub.mem hy), ?_,
          hpin, hpoo1, fun y hy => hy, fun y hy => hoo1sub.mem hy,
          fun hdn => by cases hdn⟩
        · have := hlt1 y hy
          omega
        · intro m _ hoo y hy
          exact hoo y (hd1sub.mem hy)
      · rw [if_neg hdn1]
        rw [Bool.not_eq_true] at hdn1
        by_cases hcb : cb x
        · rw [if_pos hcb]
          dsimp only
          refine ⟨?_, fun y hy => ?_, fun y hy => ?_, ?_, hpr, hpoo1,
            fun y hy => List.mem_cons_of_mem _ hy, fun y hy => hoo1sub.mem hy,
            fun hdn => by cases hdn⟩
          · rw [List.pairwise_append]
            refine ⟨hpd1, List.pairwise_singleton _ _, fun a ha b hb => ?_⟩
            rcases List.mem_singleton.mp hb with rfl
            have := hlt1 a ha
            rw [tle]
            omega
          · rcases List.mem_append.mp hy with hy | hy
            · have := hlt1 y hy
              omega
            · rcases List.mem_singleton.mp hy with rfl
              omega
          · rcases List.mem_append.mp hy with hy | hy
            · exact Or.inr (hd1sub.mem hy)
            · rcases List.mem_singleton.mp hy with rfl
              exact Or.inl (List.mem_cons_self _ _)
          · intro m hin hoo y hy
            rcases List.mem_append.mp hy with hy | hy
            · exact hoo y (hd1sub.mem hy)
            · rcases List.mem_singleton.mp hy with rfl
              exact hin _ (List.mem_cons_self _ _)
        · rw [if_neg hcb]
          obtain ⟨hpd2, hle2, hmem2, hmin2, hpinR, hpooR, hinRmem, hooRmem, hdn2⟩ :=
            ih oo1 hpr hpoo1
          rcases hrec : slowPathAux cb deadline rest oo1 with ⟨d2, inR2, ooR2, dn2⟩
          rw [hrec] at hpd2 hle2 hmem2 hmin2 hpinR hpooR hinRmem hooRmem hdn2
          dsimp only at hpd2 hle2 hmem2 hmin2 hpinR hpooR hinRmem hooRmem hdn2 ⊢
          have hoo1ge : ∀ y ∈ oo1, x.Timestamp ≤ y.Timestamp := by
            intro y hy
            exact hrem1 hdn1 y hy
          have hd2ge : ∀ y ∈ d2, x.Timestamp ≤ y.Timestamp := by
            intro y hy
            refine hmin2 x.Timestamp ?_ hoo1ge y hy
            intro z hz
            exact hxr z hz
          refine ⟨?_, fun y hy => ?_, fun y hy => ?_, ?_, hpinR, hpooR,
            fun y hy => List.mem_cons_of_mem _ (hinRmem y hy),
            fun y hy => hoo1sub.mem (hooRmem y hy), hdn2⟩
          · rw [List.pairwise_append]
            refine ⟨hpd1, ?_, fun a ha b hb => ?_⟩
            · rw [List.pairwise_cons]
              exact ⟨fun b hb => hd2ge b hb, hpd2⟩
            · have hax := hlt1 a ha
              rcases List.mem_cons.mp hb with rfl | hb
              · rw [tle]
                omega
              · have := hd2ge b hb
                rw [tle]
                omega
          · rcases List.mem_append.mp hy with hy | hy
            · have := hlt1 y hy
              omega
            · rcases List.mem_cons.mp hy with rfl | hy
              · omega
              · exact hle2 y hy
          · rcases List.mem_append.mp hy with hy | hy
            · exact Or.inr (hd1sub.mem hy)
            · rcases List.mem_cons.mp hy with rfl | hy
              · exact Or.inl (List.mem_cons_self _ _)
              · rcases hmem2 y hy with h | h
                · exact Or.inl (List.mem_cons_of_mem _ h)
                · exact Or.inr (hoo1sub.mem h)
          · intro m hin hoo y hy
            rcases List.mem_append.mp hy with hy | hy
            · exact hoo y (hd1sub.mem hy)
            · rcases List.mem_cons.mp hy with rfl | hy
              · exact hin _ (List.mem_cons_self _ _)
              · refine hmin2 m (fun z hz => hin z (List.mem_cons_of_mem _ hz))
                  (fun z hz => hoo z (hoo1sub.mem hz)) y hy

/-- State invariant of a reorder instance between operations, under
the default (unbounded) memory limit: both queues are sorted, bounded
above by the clock, and no queued entry has left the lookback
window. -/
structure RInv (s : ReorderT) : Prop where
  hwin : 0 < s.window
  hlim : s.mLimit = none
  hin : List.Pairwise tle s.inList
  hoo : List.Pairwise tle s.ooList
  hinlow : ∀ x ∈ s.inList, s.clock - s.window < x.Timestamp
  hinhigh : ∀ x ∈ s.inList, x.Timestamp ≤ s.clock
  hoolow : ∀ x ∈ s.ooList, s.clock - s.window ≤ x.Timestamp
  hoohigh : ∀ x ∈ s.ooList, x.Timestamp ≤ s.clock

/-- A failed back-insertion scan means every queued entry is strictly
newer than the inserted one. -/
theorem ooInsertAux_none (e : LogEntry) :
    ∀ l : List LogEntry, ooInsertAux e l = none →
    ∀ x ∈ l, ¬(x.Timestamp ≤ e.Timestamp) := by
  intro l
  induction l with
  | nil => intro _ x hx; cases hx
  | cons a rest ih =>
    intro hnone x hx
    rw [ooInsertAux] at hnone
    rcases hrec : ooInsertAux e rest with _ | p
    · rw [hrec] at hnone
      by_cases ha : a.Timestamp ≤ e.Timestamp
      · rw [if_pos ha] at hnone
        cases hnone
      · rcases List.mem_cons.mp hx with rfl | hx
        · exact ha
        · exact ih hrec x hx
    · rw [hrec] at hnone
      cases hnone

/-- A successful back-insertion reports an insertion-point node that
is in the queue and at or before the inserted entry. -/
theorem ooInsertAux_some_charged (e : LogEntry) :
    ∀ (l l' : List LogEntry) (ch : LogEntry),
    ooInsertAux e l = some (l', ch) →
    ch ∈ l ∧ ch.Timestamp ≤ e.Timestamp := by
  intro l
  induction l with
  | nil =>
    intro l' ch h
    rw [ooInsertAux] at h
    cases h
  | cons a rest ih =>
    intro l' ch hsome
    rw [ooInsertAux] at hsome
    rcases hrec : ooInsertAux e rest with _ | p
    · rw [hrec] at hsome
      by_cases ha : a.Timestamp ≤ e.Timestamp
      · rw [if_pos ha] at hsome
        simp only [Option.some.injEq, Prod.mk.injEq] at hsome
        obtain ⟨rfl, rfl⟩ := hsome
        exact ⟨List.mem_cons_self _ _, ha⟩
      · rw [if_neg ha] at hsome
        cases hsome
    · rw [hrec] at hsome
      rcases p with ⟨ys, ch0⟩
      simp only [Option.some.injEq, Prod.mk.injEq] at hsome
      obtain ⟨rfl, rfl⟩ := hsome
      obtain ⟨hm, hle⟩ := ih _ _ hrec
      exact ⟨List.mem_cons_of_mem _ hm, hle⟩

/-- A successful back-insertion keeps the queue sorted and only adds
the inserted entry. -/
theorem ooInsertAux_some (e : LogEntry) :
    ∀ (l l' : List LogEntry) (ch : LogEntry),
    List.Pairwise tle l → ooInsertAux e l = some (l', ch) →
    List.Pairwise tle l' ∧ (∀ y ∈ l', y = e ∨ y ∈ l) := by
  intro l
  induction l with
  | nil =>
    intro l' ch _ h
    rw [ooInsertAux] at h
    cases h
  | cons a rest ih =>
    intro l' ch hp hsome
    have har : ∀ y ∈ rest, tle a y := fun y hy => (List.pairwise_cons.mp hp).1 y hy
    have hpr : List.Pairwise tle rest := (List.pairwise_cons.mp hp).2
    rw [ooInsertAux] at hsome
    rcases hrec : ooInsertAux e rest with _ | p
    · rw [hrec] at hsome
      by_cases ha : a.Timestamp ≤ e.Timestamp
      · rw [if_pos ha] at hsome
        simp only [Option.some.injEq, Prod.mk.injEq] at hsome
        obtain ⟨rfl, rfl⟩ := hsome
        have hefloor : ∀ y ∈ rest, tle e y := by
          intro y hy
          have := ooInsertAux_none e rest hrec y hy
          rw [tle]
          omega
        refine ⟨?_, ?_⟩
        · rw [List.pairwise_cons]
          refine ⟨fun y hy => ?_, ?_⟩
          · rcases List.mem_cons.mp hy with rfl | hy
            · exact ha
            · exact har y hy
          · rw [List.pairwise_cons]
            exact ⟨hefloor, hpr⟩
        · intro y hy
          rcases List.mem_cons.mp hy with rfl | hy
          · exact Or.inr (List.mem_cons_self _ _)
          · rcases List.mem_cons.mp hy with rfl | hy
            · exact Or.inl rfl
            · exact Or.inr (List.mem_cons_of_mem _ hy)
      · rw [if_neg ha] at hsome
        cases hsome
    · rw [hrec] at hsome
      rcases p with ⟨ys, ch0⟩
      simp only [Option.some.injEq, Prod.mk.injEq] at hsome
      obtain ⟨rfl, rfl⟩ := hsome
      obtain ⟨hpy, hmy⟩ := ih _ _ hpr hrec
      obtain ⟨hchm, hchle⟩ := ooInsertAux_some_charged e rest _ _ hrec
      refine ⟨?_, ?_⟩
      · rw [List.pairwise_cons]
        refine ⟨fun y hy => ?_, hpy⟩
        rcases hmy y hy with rfl | hy
        · have := har _ hchm
          rw [tle] at *
          omega
        · exact har y hy
      · intro y hy
        rcases List.mem_cons.mp hy with rfl | hy
        · exact Or.inr (List.mem_cons_self _ _)
        · rcases hmy y hy with rfl | hy
          · exact Or.inl rfl
          · exact Or.inr (List.mem_cons_of_mem _ hy)

/-- `queueOutofOrder` preserves the invariant and delivers nothing:
the entry is dropped when older than the window, else inserted into
the out-of-order queue in timestamp order. -/
theorem queueOutofOrder_spec (s : ReorderT) (e : LogEntry) (h : RInv s)
    (he : e.Timestamp ≤ s.clock) :
    RInv (s.queueOutofOrder e)
    ∧ (s.queueOutofOrder e).clock = s.clock
    ∧ (s.queueOutofOrder e).window = s.window
    ∧ (s.queueOutofOrder e).mLimit = s.mLimit
    ∧ (s.queueOutofOrder e).inList = s.inList := by
  rw [ReorderT.queueOutofOrder]
  by_cases hdrop : e.Timestamp < s.clock - s.window
  · rw [if_pos hdrop]
    exact ⟨h, rfl, rfl, rfl, rfl⟩
  · rw [if_neg hdrop]
    rcases hins : ooInsertAux e s.ooList with _ | p
    · refine ⟨⟨h.hwin, h.hlim, h.hin, ?_, h.hinlow, h.hinhigh, ?_, ?_⟩,
        rfl, rfl, rfl, rfl⟩
      · rw [List.pairwise_cons]
        refine ⟨fun y hy => ?_, h.hoo⟩
        have := ooInsertAux_none e s.ooList hins y hy
        rw [tle]
        omega
      · intro x hx
        rcases List.mem_cons.mp hx with rfl | hx
        · dsimp only
          omega
        · exact h.hoolow x hx
      · intro x hx
        rcases List.mem_cons.mp hx with rfl | hx
        · exact he
        · exact h.hoohigh x hx
    · rcases p with ⟨l, ch⟩
      obtain ⟨hpl, hml⟩ := ooInsertAux_some e s.ooList l ch h.hoo hins
      refine ⟨⟨h.hwin, h.hlim, h.hin, hpl, h.hinlow, h.hinhigh, ?_, ?_⟩,
        rfl, rfl, rfl, rfl⟩
      · intro x hx
        rcases hml x hx with rfl | hx
        · dsimp only
          omega
        · exact h.hoolow x hx
      · intro x hx
        rcases hml x hx with rfl | hx
        · exact he
        · exact h.hoohigh x hx

/-- `flushQ` delivers a sorted batch of entries outside the lookback
window, drawn from the queues, and (absent cooperative termination)
restores the invariant without touching clock, window or limit; the
memory limit is preserved unconditionally. -/
theorem flushQ_spec (cb : LogEntry → Bool) (s : ReorderT)
    (hw : 0 < s.window) (hl : s.mLimit = none)
    (hin : List.Pairwise tle s.inList) (hoo : List.Pairwise tle s.ooList)
    (hinhigh : ∀ x ∈ s.inList, x.Timestamp ≤ s.clock)
    (hoohigh : ∀ x ∈ s.ooList, x.Timestamp ≤ s.clock) :
    List.Pairwise tle (s.flushQ cb).2.1
    ∧ (∀ x ∈ (s.flushQ cb).2.1, x.Timestamp ≤ s.clock - s.window)
    ∧ (∀ x ∈ (s.flushQ cb).2.1, x ∈ s.inList ∨ x ∈ s.ooList)
    ∧ ((s.flushQ cb).2.2 = false → RInv (s.flushQ cb).1
        ∧ (s.flushQ cb).1.clock = s.clock
        ∧ (s.flushQ cb).1.window = s.window)
    ∧ (s.flushQ cb).1.mLimit = s.mLimit
    ∧ (s.flushQ cb).1.window = s.window := by
  rw [ReorderT.flushQ]
  by_cases hemp : s.ooList.isEmpty
  · rw [if_pos hemp]
    rw [List.isEmpty_iff] at hemp
    obtain ⟨hsplit, hle, hrem⟩ := fastPathAux_spec cb (s.clock - s.window) s.inList hin
    rw [ReorderT.fastPath]
    rcases hfp : fastPathAux cb (s.clock - s.window) s.inList with ⟨d0, rem0, dn0⟩
    rw [hfp] at hsplit hle hrem
    dsimp only at hsplit hle hrem ⊢
    have hdsb : List.Sublist d0 s.inList := hsplit ▸ List.sublist_append_left d0 rem0
    have hrsb : List.Sublist rem0 s.inList := hsplit ▸ List.sublist_append_right d0 rem0
    by_cases hdn : dn0
    · rw [if_pos hdn]
      exact ⟨hin.sublist hdsb, hle, fun x hx => Or.inl (hdsb.mem hx),
        fun hfalse => Bool.noConfusion hfalse, rfl, rfl⟩
    · rw [if_neg hdn]
      rw [Bool.not_eq_true] at hdn
      refine ⟨hin.sublist hdsb, hle, fun x hx => Or.inl (hdsb.mem hx),
        fun _ => ⟨⟨hw, hl, hin.sublist hrsb, hoo,
          ?_, ?_, ?_, ?_⟩, rfl, rfl⟩, rfl, rfl⟩
      · intro x hx
        exact hrem hdn x hx
      · intro x hx
        exact hinhigh x (hrsb.mem hx)
      · intro x hx
        rw [hemp] at hx
        cases hx
      · intro x hx
        rw [hemp] at hx
        cases hx
  · rw [if_neg hemp]
    obtain ⟨hpd, hle, hmem, _hmin, hpinR, hpooR, hinRmem, hooRmem, hdnp⟩ :=
      slowPathAux_spec cb (s.clock - s.window) s.inList s.ooList hin hoo
    rw [ReorderT.slowPath]
    rcases hsp : slowPathAux cb (s.clock - s.window) s.inList s.ooList
      with ⟨d0, inR0, ooR0, dn0⟩
    rw [hsp] at hpd hle hmem hpinR hpooR hinRmem hooRmem hdnp
    dsimp only at hpd hle hmem hpinR hpooR hinRmem hooRmem hdnp ⊢
    by_cases hdn : dn0
    · rw [if_pos hdn]
      exact ⟨hpd, hle, hmem, fun hfalse => Bool.noConfusion hfalse, rfl, rfl⟩
    · rw [if_neg hdn]
      rw [Bool.not_eq_true] at hdn
      obtain ⟨hinlow, hoolow⟩ := hdnp hdn
      refine ⟨hpd, hle, hmem,
        fun _ => ⟨⟨hw, hl, hpinR, hpooR, hinlow, ?_, fun x hx => ?_, ?_⟩, rfl, rfl⟩,
        rfl, rfl⟩
      · intro x hx
        exact hinhigh x (hinRmem x hx)
      · have := hoolow x hx
        dsimp only
        omega
      · intro x hx
        exact hoohigh x (hooRmem x hx)

/-- The clock never moves backwards across an operation. -/
theorem opClock_ge (s : ReorderT) (op : ROp) : s.clock ≤ opClock s op := by
  cases op with
  | append e =>
    rw [opClock]
    split <;> omega
  | advance stamp =>
    rw [opClock]
    split <;> omega

/-- `appendQ` under the invariant. -/
theorem appendQ_spec (cb : LogEntry → Bool) (s : ReorderT) (e : LogEntry)
    (h : RInv s) :
    List.Pairwise tle (s.appendQ cb e).2.1
    ∧ (∀ x ∈ (s.appendQ cb e).2.1, x.Timestamp ≤ opClock s (.append e) - s.window)
    ∧ (∀ x ∈ (s.appendQ cb e).2.1, s.clock - s.window ≤ x.Timestamp)
    ∧ ((s.appendQ cb e).2.2 = false → RInv (s.appendQ cb e).1
        ∧ (s.appendQ cb e).1.clock = opClock s (.append e)
        ∧ (s.appendQ cb e).1.window = s.window)
    ∧ (s.appendQ cb e).1.mLimit = none := by
  rw [ReorderT.appendQ, opClock]
  by_cases hreg : e.Timestamp < s.clock
  · rw [if_pos hreg, if_pos hreg]
    obtain ⟨hq, hqclock, hqwin, hqlim, _⟩ := queueOutofOrder_spec s e h (by omega)
    exact ⟨List.Pairwise.nil, by simp, by simp,
      fun _ => ⟨hq, hqclock, hqwin⟩, hqlim.trans h.hlim⟩
  · rw [if_neg hreg, if_neg hreg]
    have hclk : s.clock ≤ e.Timestamp := by omega
    set s1 : ReorderT :=
      { s with clock := e.Timestamp, inList := s.inList ++ [e],
               mUsed := s.mUsed + entrySize e } with hs1
    have hin1 : List.Pairwise tle s1.inList := by
      rw [List.pairwise_append]
      refine ⟨h.hin, List.pairwise_singleton _ _, fun a ha b hb => ?_⟩
      rcases List.mem_singleton.mp hb with rfl
      have := h.hinhigh a ha
      rw [tle]
      omega
    have hinhigh1 : ∀ x ∈ s1.inList, x.Timestamp ≤ s1.clock := by
      intro x hx
      rcases List.mem_append.mp hx with hx | hx
      · have := h.hinhigh x hx
        dsimp only
        omega
      · rcases List.mem_singleton.mp hx with rfl
        exact le_refl _
    have hoohigh1 : ∀ x ∈ s1.ooList, x.Timestamp ≤ s1.clock := by
      intro x hx
      have := h.hoohigh x hx
      dsimp only
      omega
    obtain ⟨hpd, hle, hmem, hrest, hml, hwn⟩ :=
      flushQ_spec cb s1 h.hwin h.hlim hin1 h.hoo hinhigh1 hoohigh1
    refine ⟨hpd, hle, fun x hx => ?_, fun hdn => ?_, hml.trans h.hlim⟩
    · rcases hmem x hx with hx' | hx'
      · rcases List.mem_append.mp hx' with hx'' | hx''
        · have := h.hinlow x hx''
          omega
        · rcases List.mem_singleton.mp hx'' with rfl
          have := h.hwin
          omega
      · have := h.hoolow x hx'
        omega
    · obtain ⟨hi, hc, hw⟩ := hrest hdn
      exact ⟨hi, hc, hw⟩

/-- With no memory limit, `Append` is exactly `appendQ` (the trim
phase is unreachable). -/
theorem Append_eq_appendQ (cb : LogEntry → Bool) (s : ReorderT) (e : LogEntry)
    (hl : (s.appendQ cb e).1.mLimit = none) :
    s.Append cb e = s.appendQ cb e := by
  rw [ReorderT.Append]
  rcases happ : s.appendQ cb e with ⟨s1, d, dn⟩
  rw [happ] at hl
  dsimp only at hl ⊢
  rw [hl]

/-- One reorder operation under the invariant: the delivered batch is
sorted, lies at or below `opClock − window` and at or above the
pre-state's `clock − window`; when the callback has not terminated
the run, the invariant is restored with `clock = opClock`. -/
theorem stepReorder_spec (cb : LogEntry → Bool) (s : ReorderT) (op : ROp)
    (h : RInv s) :
    List.Pairwise tle (stepReorder cb s op).2.1
    ∧ (∀ x ∈ (stepReorder cb s op).2.1, x.Timestamp ≤ opClock s op - s.window)
    ∧ (∀ x ∈ (stepReorder cb s op).2.1, s.clock - s.window ≤ x.Timestamp)
    ∧ ((stepReorder cb s op).2.2 = false → RInv (stepReorder cb s op).1
        ∧ (stepReorder cb s op).1.clock = opClock s op
        ∧ (stepReorder cb s op).1.window = s.window) := by
  cases op with
  | append e =>
    obtain ⟨hpd, hle, hge, hrest, hml⟩ := appendQ_spec cb s e h
    rw [stepReorder, Append_eq_appendQ cb s e hml]
    exact ⟨hpd, hle, hge, hrest⟩
  | advance stamp =>
    rw [stepReorder, ReorderT.AdvanceClock, opClock]
    by_cases hreg : stamp < s.clock
    · rw [if_pos hreg, if_pos hreg]
      exact ⟨List.Pairwise.nil, by simp, by simp, fun _ => ⟨h, rfl, rfl⟩⟩
    · rw [if_neg hreg, if_neg hreg]
      set s1 : ReorderT := { s with clock := stamp } with hs1
      obtain ⟨hpd, hle, hmem, hrest, hml, hwn⟩ := flushQ_spec cb s1 h.hwin h.hlim
        h.hin h.hoo
        (fun x hx => le_trans (h.hinhigh x hx) (by dsimp only; omega))
        (fun x hx => le_trans (h.hoohigh x hx) (by dsimp only; omega))
      refine ⟨hpd, hle, fun x hx => ?_, fun hdn => hrest hdn⟩
      rcases hmem x hx with hx' | hx'
      · have := h.hinlow x hx'
        omega
      · have := h.hoolow x hx'
        omega

/-- Running a sequence of operations from an invariant state delivers
batches whose concatenation is sorted by timestamp; every delivered
entry is at most its delivery clock minus the window and at least the
starting clock minus the window. -/
theorem runReorder_spec (cb : LogEntry → Bool) (ops : List ROp) :
    ∀ s : ReorderT, RInv s →
    List.Pairwise tle ((runReorder cb s ops).1.map Prod.fst)
    ∧ (∀ p ∈ (runReorder cb s ops).1, p.1.Timestamp ≤ p.2 - s.window)
    ∧ (∀ p ∈ (runReorder cb s ops).1, s.clock - s.window ≤ p.1.Timestamp) := by
  induction ops with
  | nil =>
    intro s _
    exact ⟨List.Pairwise.nil, by simp [runReorder], by simp [runReorder]⟩
  | cons op rest ih =>
    intro s h
    obtain ⟨hpd, hle, hge, hnxt⟩ := stepReorder_spec cb s op h
    rw [runReorder]
    rcases hst : stepReorder cb s op with ⟨s1, d, dn⟩
    rw [hst] at hpd hle hge hnxt
    dsimp only at hpd hle hge hnxt ⊢
    have hmapfst : (d.map (fun e => (e, opClock s op))).map Prod.fst = d := by
      rw [List.map_map]
      exact List.map_id d
    by_cases hdn : dn
    · rw [if_pos hdn]
      refine ⟨by rw [hmapfst]; exact hpd, fun p hp => ?_, fun p hp => ?_⟩
      · rcases List.mem_map.mp hp with ⟨e, he, rfl⟩
        exact hle e he
      · rcases List.mem_map.mp hp with ⟨e, he, rfl⟩
        exact hge e he
    · rw [if_neg hdn]
      rw [Bool.not_eq_true] at hdn
      obtain ⟨hi1, hc1, hw1⟩ := hnxt hdn
      obtain ⟨rpd, rle, rge⟩ := ih s1 hi1
      rcases hrec : runReorder cb s1 rest with ⟨dR, s2, dn2⟩
      rw [hrec] at rpd rle rge
      dsimp only at rpd rle rge ⊢
      have hcs : s.clock ≤ opClock s op := opClock_ge s op
      refine ⟨?_, fun p hp => ?_, fun p hp => ?_⟩
      · rw [List.map_append, List.pairwise_append, hmapfst]
        refine ⟨hpd, rpd, fun a ha b hb => ?_⟩
        rcases List.mem_map.mp hb with ⟨q, hq, rfl⟩
        have hb1 := rge q hq
        rw [hc1, hw1] at hb1
        have ha1 := hle a ha
        rw [tle]
        omega
      · rcases List.mem_append.mp hp with hp | hp
        · rcases List.mem_map.mp hp with ⟨e, he, rfl⟩
          exact hle e he
        · have := rle p hp
          rw [hw1] at this
          exact this
      · rcases List.mem_append.mp hp with hp | hp
        · rcases List.mem_map.mp hp with ⟨e, he, rfl⟩
          exact hge e he
        · have := rge p hp
          rw [hc1, hw1] at this
          omega

/-- C6: in the absence of memory-pressure trimming (no memory limit),
a Reorder instance delivers entries in non-decreasing timestamp order,
and an entry is delivered only once its timestamp is at most the
delivery-time clock minus the window; concretely with window 10,
appending timestamps 1, 3, 2, then 14 delivers exactly the entries
with timestamps 1, 2, 3 in that order, all at the step when 14
arrives. -/
theorem C6_reorder_in_order :
    (∀ window : Int, 0 < window →
      NewReorder window none =
        Except.ok ⟨window, 0, 0, none, [], []⟩)
    ∧ (∀ (cb : LogEntry → Bool) (window : Int) (ops : List ROp),
        0 < window →
        List.Pairwise tle
          ((runReorder cb ⟨window, 0, 0, none, [], []⟩ ops).1.map Prod.fst)
        ∧ ∀ p ∈ (runReorder cb ⟨window, 0, 0, none, [], []⟩ ops).1,
            p.1.Timestamp ≤ p.2 - window)
    ∧ (runReorder (fun _ => false) ⟨10, 0, 0, none, [], []⟩
        [.append (en "a" 1), .append (en "c" 3), .append (en "b" 2),
         .append (en "x" 14)]).1
      = [(en "a" 1, 14), (en "b" 2, 14), (en "c" 3, 14)] := by
  refine ⟨fun window hw => ?_, fun cb window ops hw => ?_, by decide⟩
  · rw [NewReorder, if_neg (by omega)]
  · have hinv : RInv (⟨window, 0, 0, none, [], []⟩ : ReorderT) :=
      ⟨hw, rfl, List.Pairwise.nil, List.Pairwise.nil,
        fun x hx => absurd hx (List.not_mem_nil x),
        fun x hx => absurd hx (List.not_mem_nil x),
        fun x hx => absurd hx (List.not_mem_nil x),
        fun x hx => absurd hx (List.not_mem_nil x)⟩
    obtain ⟨hpd, hle, _⟩ := runReorder_spec cb ops _ hinv
    exact ⟨hpd, hle⟩

/-- C6 witness: the hypotheses are satisfiable at window 10. -/
theorem C6_reorder_in_order_witness :
    (0:Int) < 10
    ∧ NewReorder 10 none = Except.ok ⟨10, 0, 0, none, [], []⟩
    ∧ List.Pairwise tle
        ((runReorder (fun _ => false) ⟨10, 0, 0, none, [], []⟩
          [.append (en "a" 1), .append (en "c" 3), .append (en "b" 2),
           .append (en "x" 14)]).1.map Prod.fst) :=
  ⟨by decide, C6_reorder_in_order.1 10 (by decide),
    (C6_reorder_in_order.2.1 (fun _ => false) 10
      [.append (en "a" 1), .append (en "c" 3), .append (en "b" 2),
       .append (en "x" 14)] (by decide)).1⟩

end Logmatch
